import Mathlib

/-!
# gr-reveng `pattern_dump` block: a shallow embedding of `lib/pattern_dump_impl.cc`

The block scans a stream of one-bit samples for a fixed synchronisation
pattern, captures the `dump_len` bits that follow each match and renders the
captured payload as text.

Modelling conventions
* `boost::dynamic_bitset<>` is a `List Bool` whose element `i` is bit `i` of
  the bitset (position 0 first, the most significant position last).
* `std::string` is a `List Char`.
* `unsigned char` is `Fin 256`; its conversion to `bool` is the test `≠ 0`.
* Operations that can fail in the source (an out-of-range bitset index, a
  `std::bitset<8>` built from a character that is not `0`/`1`, `substr` past
  the end) return `Option`, with `none` for the failure.
* The wall clock and the steady clock are inputs: a `Clock` value holds what
  the two time sources render during one loop iteration. `format_output` and
  `work` take the wall-clock rendering as it is; the 512-byte buffer it is
  written to (lines 205-207) is accounted for in `format_output_buf` and
  `work_buf`, which agree with them whenever the rendering fits.
* Counters and loop indices are mathematical integers: the loop indices of the
  source are `int`, the counters are declared in `pattern_dump_impl.h`, and
  the register sizes they are compared with stay far below `2^31`.
* The file, console and message-port sinks are not modelled; what they receive
  is recorded in the list of `Frame`s that `work` returns.
-/

namespace gr.reveng

/-! ## `boost::dynamic_bitset<>` -/

/-- The bitset constructor `dynamic_bitset(num_bits)`: `num_bits` zero bits. -/
def bitset_new (num_bits : Nat) : List Bool := List.replicate num_bits false

/-- The operator `bitset <<= 1`: every bit moves one position up, position 0 is
cleared and the bit at the top position falls off; the size is unchanged. -/
def bitset_shl1 (b : List Bool) : List Bool := (false :: b).take b.length

/-- The assignment `bitset[pos] = x`; `none` when `pos` is not below the size. -/
def bitset_assign (b : List Bool) (pos : Nat) (x : Bool) : Option (List Bool) :=
  if pos < b.length then some (b.set pos x) else none

/-- The function `boost::to_string(bitset, out)`: one character per bit, the
highest position first. -/
def bitset_to_string (b : List Bool) : List Char :=
  b.reverse.map (fun x => if x then '1' else '0')

/-- Conversion of an `unsigned char` to `bool`. -/
def to_bool (c : Fin 256) : Bool := c != 0

/-! ## `pattern_dump_impl` -/

/-- Method `pattern_dump_impl::shift_bit` (lines 217-222). -/
def shift_bit (bitset : List Bool) (bit : Bool) : Option (List Bool) :=
  bitset_assign (bitset_shl1 bitset) 0 bit

/-- State of a `pattern_dump_impl` object: the members the bit-processing path
reads or writes. The class declaration is in `pattern_dump_impl.h`; the two
counters are the integers `check_len` and `payload_len` of the design, taken
without a machine width (they never exceed the register sizes). -/
structure pattern_dump_impl where
  /-- Output template. -/
  d_output_fmt : List Char
  /-- Relative-time mode when true, wall-clock mode when false. -/
  d_rel_time : Bool
  /-- Target pattern, first pattern element at the highest position. -/
  d_pattern : List Bool
  /-- Sliding window of the most recent input bits. -/
  d_pattern_check : List Bool
  /-- Payload register. -/
  d_output : List Bool
  /-- Number of bits shifted into `d_pattern_check` since the last re-arm, capped. -/
  d_pattern_check_len : Int
  /-- Number of payload bits captured so far. -/
  d_output_len : Int
  deriving DecidableEq, Repr

/-- Loop of the constructor (lines 58-60): `for (auto bit : pattern)
d_pattern[i--] = bit;`. The index starts at `pattern.size() - 1` and goes down
by one per element, so it is a valid position at every assignment. -/
def copy_pattern : List (Fin 256) → Int → List Bool → List Bool
  | [], _, d_pattern => d_pattern
  | bit :: rest, i, d_pattern => copy_pattern rest (i - 1) (d_pattern.set i.toNat (to_bool bit))

/-- Constructor `pattern_dump_impl::pattern_dump_impl` (lines 44-71), without
the file and message-port setup. -/
def make (pattern : List (Fin 256)) (dump_len : Nat) (output_fmt : List Char)
    (rel_time : Bool) : pattern_dump_impl :=
  { d_output_fmt := output_fmt
    d_rel_time := rel_time
    d_pattern := copy_pattern pattern ((pattern.length : Int) - 1) (bitset_new pattern.length)
    d_pattern_check := bitset_new pattern.length
    d_output := bitset_new dump_len
    d_pattern_check_len := 0
    d_output_len := 0 }

/-! ## Encoders -/

/-- Method `get_output_bit_string` (lines 139-145), reading member `d_output`. -/
def get_output_bit_string (d_output : List Bool) : List Char :=
  bitset_to_string d_output

/-- The call `s.substr(pos, n)`: at most `n` characters from position `pos`;
`none` (`std::out_of_range`) when `pos` is past the end. -/
def substr (s : List Char) (pos n : Nat) : Option (List Char) :=
  if pos ≤ s.length then some ((s.drop pos).take n) else none

/-- Value of `std::bitset<8>(s).to_ulong()`: the first (at most 8) characters are
read as a binary numeral, first character most significant; `none`
(`std::invalid_argument`) when one of them is neither `0` nor `1`. -/
def bitset8_to_ulong (s : List Char) : Option Nat :=
  (s.take 8).foldlM
    (fun acc c => if c = '0' then some (2 * acc) else if c = '1' then some (2 * acc + 1) else none)
    0

/-- Text of `ss << std::setw(2) << v` on a stream set to
`std::uppercase << std::setfill('0') << std::hex`: the upper-case hexadecimal
numeral of `v`, padded on the left with `0` to width 2. -/
def put_hex_w2 (v : Nat) : List Char :=
  let digits := (Nat.toDigits 16 v).map Char.toUpper
  List.replicate (2 - digits.length) '0' ++ digits

/-- Loop of `get_output_hex_string` (lines 153-155) from index `i` with the
stream content `ss`. The first argument bounds the number of iterations;
running out of it with the loop condition still true gives `none`. -/
def hex_loop (bitstring : List Char) : Nat → Nat → List Char → Option (List Char)
  | 0, i, ss => if i < bitstring.length then none else some ss
  | fuel + 1, i, ss =>
    if i < bitstring.length then do
      let group ← substr bitstring i 8
      let v ← bitset8_to_ulong group
      hex_loop bitstring fuel (i + 8) (ss ++ put_hex_w2 v)
    else some ss

/-- Method `get_output_hex_string` (lines 147-157). -/
def get_output_hex_string (d_output : List Bool) : Option (List Char) :=
  let bitstring := get_output_bit_string d_output
  hex_loop bitstring bitstring.length 0 []

/-- Loop of `get_output_man_string` (lines 164-172). -/
def man_loop (bitstring : List Char) : Nat → Nat → List Char → Option (List Char)
  | 0, i, out => if i < bitstring.length then none else some out
  | fuel + 1, i, out =>
    if i < bitstring.length then do
      let symbol ← substr bitstring i 2
      if symbol = ['0', '1'] then man_loop bitstring fuel (i + 2) (out ++ ['0'])
      else if symbol = ['1', '0'] then man_loop bitstring fuel (i + 2) (out ++ ['1'])
      else man_loop bitstring fuel (i + 2) (out ++ ['x'])
    else some out

/-- Method `get_output_man_string` (lines 159-174). -/
def get_output_man_string (d_output : List Bool) : Option (List Char) :=
  let bitstring := get_output_bit_string d_output
  man_loop bitstring bitstring.length 0 []

/-- Loop of `get_output_pwm_string` (lines 181-189). -/
def pwm_loop (bitstring : List Char) : Nat → Nat → List Char → Option (List Char)
  | 0, i, out => if i < bitstring.length then none else some out
  | fuel + 1, i, out =>
    if i < bitstring.length then do
      let symbol ← substr bitstring i 3
      if symbol = ['1', '0', '0'] then pwm_loop bitstring fuel (i + 3) (out ++ ['1'])
      else if symbol = ['1', '1', '0'] then pwm_loop bitstring fuel (i + 3) (out ++ ['0'])
      else pwm_loop bitstring fuel (i + 3) (out ++ ['x'])
    else some out

/-- Method `get_output_pwm_string` (lines 176-191). -/
def get_output_pwm_string (d_output : List Bool) : Option (List Char) :=
  let bitstring := get_output_bit_string d_output
  pwm_loop bitstring bitstring.length 0 []

/-! ## Output formatter -/

/-- Scan of `boost::replace_all`: the first argument counts the characters of
the current match that are still to be skipped. Matches are found left to
right in the original input and do not overlap; the inserted text is not
scanned again. -/
def replace_all_scan (search fmt : List Char) : Nat → List Char → List Char
  | _, [] => []
  | skip + 1, _ :: rest => replace_all_scan search fmt skip rest
  | 0, c :: rest =>
    if search.isPrefixOf (c :: rest) then
      fmt ++ replace_all_scan search fmt (search.length - 1) rest
    else c :: replace_all_scan search fmt 0 rest

/-- The call `boost::replace_all(input, search, fmt)`, as the new value of
`input`. An empty search string matches nowhere. -/
def replace_all (input search fmt : List Char) : List Char :=
  if search = [] then input else replace_all_scan search fmt 0 input

/-- What the two time sources give during one loop iteration: `rel_time` is
`std::to_string(elapsed.count())` for the steady clock, and `strftime fmt` is
the buffer `std::strftime` fills for format `fmt` at the current local time. -/
structure Clock where
  /-- Text of the elapsed seconds. -/
  rel_time : List Char
  /-- Rendering of a format string by the wall clock. -/
  strftime : List Char → List Char

/-- Method `format_output` (lines 193-215), reading members `d_output_fmt`,
`d_rel_time` and `d_output`. -/
def format_output (d_output_fmt : List Char) (d_rel_time : Bool) (d_output : List Bool)
    (clk : Clock) : Option (List Char) := do
  let out :=
    if d_rel_time then replace_all d_output_fmt "%s".toList clk.rel_time
    else clk.strftime d_output_fmt
  let out := replace_all out "%[bits]".toList (get_output_bit_string d_output)
  let out := replace_all out "%[hex]".toList (← get_output_hex_string d_output)
  let out := replace_all out "%[man-bits]".toList (← get_output_man_string d_output)
  let out := replace_all out "%[pwm-bits]".toList (← get_output_pwm_string d_output)
  some out

/-! ## The `work` loop -/

/-- What the block hands over when a frame completes: `msg` is the bit string
published on the message port, `output` the line given to each enabled text
sink (which appends the newline), and `payload` the content of `d_output` at
that moment. -/
structure Frame where
  /-- Content of the payload register when the frame completed. -/
  payload : List Bool
  /-- Bit string published on the message port. -/
  msg : List Char
  /-- Rendered output line. -/
  output : List Char
  deriving DecidableEq, Repr

/-- The condition of line 106: the matcher is locked. -/
def locked (self : pattern_dump_impl) : Prop :=
  self.d_pattern_check_len = (self.d_pattern_check.length : Int) ∧
    self.d_pattern_check = self.d_pattern

instance (self : pattern_dump_impl) : Decidable (locked self) := by
  unfold locked; infer_instance

/-- Lines 107-127: the branch of the loop body taken while locked. -/
def capture_bit (self : pattern_dump_impl) (clk : Clock) (bit : Bool) :
    Option (pattern_dump_impl × Option Frame) := do
  let d_output ← shift_bit self.d_output bit
  let self := { self with d_output := d_output, d_output_len := self.d_output_len + 1 }
  if self.d_output_len = (self.d_output.length : Int) then
    let msg := get_output_bit_string self.d_output
    let output ← format_output self.d_output_fmt self.d_rel_time self.d_output clk
    some ({ self with d_output_len := 0, d_pattern_check_len := 0 },
      some { payload := self.d_output, msg := msg, output := output })
  else
    some (self, none)

/-- Lines 130-131: the branch of the loop body taken while not locked. -/
def match_bit (self : pattern_dump_impl) (bit : Bool) : Option pattern_dump_impl := do
  let d_pattern_check ← shift_bit self.d_pattern_check bit
  some { self with
    d_pattern_check := d_pattern_check
    d_pattern_check_len := min (self.d_pattern_check_len + 1) (d_pattern_check.length : Int) }

/-- Body of the loop of `work` (lines 105-132) for the input item `in_i`. -/
def work_item (self : pattern_dump_impl) (clk : Clock) (in_i : Fin 256) :
    Option (pattern_dump_impl × Option Frame) :=
  let bit := to_bool in_i
  if locked self then capture_bit self clk bit
  else (match_bit self bit).map (fun self => (self, none))

/-- The loop of `work` from index `i` over the remaining input items; `clk i`
is the clock during iteration `i`. The result is the final state and the frames
completed, in order. -/
def work_loop (clk : Nat → Clock) :
    Nat → List (Fin 256) → pattern_dump_impl → Option (pattern_dump_impl × List Frame)
  | _, [], self => some (self, [])
  | i, in_i :: rest, self => do
    let (self, frame) ← work_item self (clk i) in_i
    let (self, frames) ← work_loop clk (i + 1) rest self
    some (self, frame.toList ++ frames)

/-- Method `work` (lines 97-137) on the items `input_items`, with
`noutput_items = input_items.length`. -/
def work (self : pattern_dump_impl) (clk : Nat → Clock) (input_items : List (Fin 256)) :
    Option (pattern_dump_impl × List Frame) :=
  work_loop clk 0 input_items self

/-! ## Reference descriptions used by the statements -/

/-- The consecutive groups `s[0..k)`, `s[k..2k)`, ... of a string; the last
group may be shorter than `k`. -/
def groups (k : Nat) (s : List Char) : List (List Char) :=
  (List.range ((s.length + k - 1) / k)).map (fun g => (s.drop (g * k)).take k)

/-- The register whose bit string is `s` (a text of `0` and `1`). -/
def payload_of (s : String) : List Bool :=
  (s.toList.map (fun c => c == '1')).reverse

/-- A group of `0`/`1` characters read as an unsigned binary number. -/
def binary_value (g : List Char) : Nat :=
  g.foldl (fun acc c => 2 * acc + (if c = '1' then 1 else 0)) 0

/-- The upper-case hexadecimal digit of a value below 16. -/
def hex_digit (v : Nat) : Char :=
  "0123456789ABCDEF".toList.getD v '?'

/-- Two upper-case hexadecimal digits of a value below 256, zero-padded. -/
def two_hex_digits (v : Nat) : List Char :=
  [hex_digit (v / 16), hex_digit (v % 16)]

/-- Manchester symbol of one group. -/
def man_symbol (g : List Char) : Char :=
  if g = "01".toList then '0' else if g = "10".toList then '1' else 'x'

/-- Pulse-width symbol of one group. -/
def pwm_symbol (g : List Char) : Char :=
  if g = "100".toList then '1' else if g = "110".toList then '0' else 'x'

/-- The hex rendering as described: two digits per group of up to 8 bits. -/
def hex_of_groups (s : List Char) : List Char :=
  (groups 8 s).flatMap (fun g => two_hex_digits (binary_value g))

/-- The text `output` is `input` with every occurrence of `search` replaced by
`fmt`: either `search` does not occur in `input`, which is kept as it is, or
`input` is `u ++ search ++ rest` where this occurrence is the first one (none
ends inside `u ++ search` before it), `u` is kept in place, the occurrence
becomes `fmt`, and `rest` is treated the same way. -/
inductive Replaced (search fmt : List Char) : List Char → List Char → Prop
  | none (input : List Char) : ¬ search <:+: input → Replaced search fmt input input
  | first (u rest rest' : List Char) :
      ¬ search <:+: u ++ search.dropLast → Replaced search fmt rest rest' →
      Replaced search fmt (u ++ search ++ rest) (u ++ fmt ++ rest')

/-! ## The reference scanner -/

/-- The text of a sequence of bits given oldest first. -/
def bit_string (bits : List Bool) : List Char :=
  bits.map (fun x => if x then '1' else '0')

/-- The last `n` elements of `w` are `pattern` (`n` the pattern length). -/
def ends_with (pattern w : List Bool) : Prop :=
  pattern.length ≤ w.length ∧ w.drop (w.length - pattern.length) = pattern

instance (pattern w : List Bool) : Decidable (ends_with pattern w) := by
  unfold ends_with; infer_instance

/-- A register that held `r` and then received the bits `q`, oldest first. -/
def reg_after (r q : List Bool) : List Bool :=
  ((r.reverse ++ q).drop q.length).reverse

/-- The state `st` after its matcher, re-armed, received the bits `q`. -/
def mstate (st : pattern_dump_impl) (q : List Bool) : pattern_dump_impl :=
  { st with
    d_pattern_check := reg_after st.d_pattern_check q
    d_pattern_check_len := min (q.length : Int) (st.d_pattern_check.length : Int) }

/-- The state `st` after its payload register, empty, received the bits `q`. -/
def cstate (st : pattern_dump_impl) (q : List Bool) : pattern_dump_impl :=
  { st with
    d_output := reg_after st.d_output q
    d_output_len := (q.length : Int) }

/-- A byte reduced to the bit it stands for: every non-zero byte becomes 1. -/
def normalize_byte (b : Fin 256) : Fin 256 :=
  if b = 0 then 0 else 1

/-- The states a run can be in: `init`, and every state a successful step
of the loop body leads to from one of them. -/
inductive Reachable (init : pattern_dump_impl) : pattern_dump_impl → Prop
  | start : Reachable init init
  | step (st st1 : pattern_dump_impl) (c : Clock) (x : Fin 256) (fo : Option Frame) :
      Reachable init st → work_item st c x = some (st1, fo) → Reachable init st1

/-- The counter bounds of a state with registers of sizes `n` and `d`. -/
def counters_ok (n d : Nat) (st : pattern_dump_impl) : Prop :=
  st.d_pattern_check.length = n ∧ st.d_output.length = d
    ∧ 0 ≤ st.d_pattern_check_len ∧ st.d_pattern_check_len ≤ (n : Int)
    ∧ 0 ≤ st.d_output_len ∧ st.d_output_len < (d : Int)
    ∧ (0 < st.d_output_len → locked st)

/-- Manchester line code of a bit sequence: 0 is sent as `01`, 1 as `10`. -/
def manchester_code (s : List Bool) : List Bool :=
  s.flatMap (fun b => if b then [true, false] else [false, true])

/-- Pulse-width line code of a bit sequence: 1 is sent as `100`, 0 as `110`. -/
def pwm_code (s : List Bool) : List Bool :=
  s.flatMap (fun b => if b then [true, false, false] else [true, true, false])

/-- Scan of a simultaneous substitution: at each position of the input, the
first token of `subs` that starts there is replaced by its text and skipped;
otherwise the character is kept. The inserted text is not scanned. -/
def substitute_scan (subs : List (List Char × List Char)) : Nat → List Char → List Char
  | _, [] => []
  | skip + 1, _ :: rest => substitute_scan subs skip rest
  | 0, c :: rest =>
    match subs.find? (fun p => p.1.isPrefixOf (c :: rest)) with
    | some p => p.2 ++ substitute_scan subs (p.1.length - 1) rest
    | none => c :: substitute_scan subs 0 rest

/-- One left-to-right simultaneous substitution of the tokens of `subs` over
`input`. -/
def substitute_all (subs : List (List Char × List Char)) (input : List Char) : List Char :=
  substitute_scan subs 0 input

/-- The five passes of `format_output` in relative mode, as scans. -/
def five_passes (x1 x2 x3 x4 x5 input : List Char) : List Char :=
  replace_all_scan "%[pwm-bits]".toList x5 0
    (replace_all_scan "%[man-bits]".toList x4 0
      (replace_all_scan "%[hex]".toList x3 0
        (replace_all_scan "%[bits]".toList x2 0
          (replace_all_scan "%s".toList x1 0 input))))

/-- The five tokens with their texts, in the order of the passes. -/
def five_tokens (x1 x2 x3 x4 x5 : List Char) : List (List Char × List Char) :=
  [("%s".toList, x1), ("%[bits]".toList, x2), ("%[hex]".toList, x3),
   ("%[man-bits]".toList, x4), ("%[pwm-bits]".toList, x5)]

/-- The characters of the four payload tokens after their `%`. -/
def token_chars : List Char := "[bits][hex][man-bits][pwm-bits]".toList

/-! ## The wall-clock buffer (lines 205-207) -/

/-- Lines 205-207: `char buf[512]` after `std::strftime(buf, sizeof(buf), fmt, ...)`,
read back by `std::string(buf)`, with `clk.strftime fmt` as the full rendering.
The rendering and its terminating NUL are stored when they fit in the 512
bytes; otherwise `strftime` returns 0, which the source does not test, and the
buffer that is read is indeterminate: `none`. -/
def strftime_buf (clk : Clock) (fmt : List Char) : Option (List Char) :=
  if (clk.strftime fmt).length + 1 ≤ 512 then some (clk.strftime fmt) else none

/-- Method `format_output` (lines 193-215) with the buffer of the wall-clock
branch accounted for. -/
def format_output_buf (d_output_fmt : List Char) (d_rel_time : Bool) (d_output : List Bool)
    (clk : Clock) : Option (List Char) := do
  let out ←
    if d_rel_time then some (replace_all d_output_fmt "%s".toList clk.rel_time)
    else strftime_buf clk d_output_fmt
  let out := replace_all out "%[bits]".toList (get_output_bit_string d_output)
  let out := replace_all out "%[hex]".toList (← get_output_hex_string d_output)
  let out := replace_all out "%[man-bits]".toList (← get_output_man_string d_output)
  let out := replace_all out "%[pwm-bits]".toList (← get_output_pwm_string d_output)
  some out

/-- Lines 107-127 with `format_output_buf` for the call of line 114. -/
def capture_bit_buf (self : pattern_dump_impl) (clk : Clock) (bit : Bool) :
    Option (pattern_dump_impl × Option Frame) := do
  let d_output ← shift_bit self.d_output bit
  let self := { self with d_output := d_output, d_output_len := self.d_output_len + 1 }
  if self.d_output_len = (self.d_output.length : Int) then
    let msg := get_output_bit_string self.d_output
    let output ← format_output_buf self.d_output_fmt self.d_rel_time self.d_output clk
    some ({ self with d_output_len := 0, d_pattern_check_len := 0 },
      some { payload := self.d_output, msg := msg, output := output })
  else
    some (self, none)

/-- Body of the loop of `work` (lines 105-132) with the buffer accounted for. -/
def work_item_buf (self : pattern_dump_impl) (clk : Clock) (in_i : Fin 256) :
    Option (pattern_dump_impl × Option Frame) :=
  let bit := to_bool in_i
  if locked self then capture_bit_buf self clk bit
  else (match_bit self bit).map (fun self => (self, none))

/-- The loop of `work` from index `i` with the buffer accounted for. -/
def work_loop_buf (clk : Nat → Clock) :
    Nat → List (Fin 256) → pattern_dump_impl → Option (pattern_dump_impl × List Frame)
  | _, [], self => some (self, [])
  | i, in_i :: rest, self => do
    let (self, frame) ← work_item_buf self (clk i) in_i
    let (self, frames) ← work_loop_buf clk (i + 1) rest self
    some (self, frame.toList ++ frames)

/-- Method `work` (lines 97-137) with the buffer accounted for. -/
def work_buf (self : pattern_dump_impl) (clk : Nat → Clock) (input_items : List (Fin 256)) :
    Option (pattern_dump_impl × List Frame) :=
  work_loop_buf clk 0 input_items self

/-! ## Theorems -/

/-! ### Encoders (C6, C7, C8) -/

theorem groups_nil (k : Nat) : groups k [] = [] := by
  rcases Nat.eq_zero_or_pos k with h | h
  · subst h; simp [groups]
  · have : (k - 1) / k = 0 := Nat.div_eq_of_lt (by omega)
    simp [groups, this]

theorem groups_cons (k : Nat) (hk : 0 < k) (s : List Char) (hs : s ≠ []) :
    groups k s = s.take k :: groups k (s.drop k) := by
  have hlen : 0 < s.length := List.length_pos.mpr hs
  have hcount : (s.length + k - 1) / k = (s.length - k + k - 1) / k + 1 := by
    rcases Nat.lt_or_ge s.length k with h | h
    · have h1 : s.length - k = 0 := by omega
      have h2 : (k - 1) / k = 0 := Nat.div_eq_of_lt (by omega)
      have h3 : (s.length + k - 1) / k = 1 := by
        apply Nat.div_eq_of_lt_le <;> omega
      rw [h1, h3]; simp [h2]
    · have h1 : s.length + k - 1 = (s.length - k + k - 1) + k := by omega
      rw [h1, Nat.add_div_right _ hk]
  unfold groups
  rw [hcount, List.range_succ_eq_map]
  simp only [List.map_cons, List.map_map, List.length_drop, Nat.zero_mul, List.drop_zero]
  congr 1
  apply List.map_congr_left
  intro g _
  simp only [Function.comp, List.drop_drop]
  congr 2
  rw [Nat.succ_mul]; omega

theorem groups_drop (k : Nat) (hk : 0 < k) (s : List Char) (i : Nat) (hi : i < s.length) :
    groups k (s.drop i) = (s.drop i).take k :: groups k (s.drop (i + k)) := by
  have hne : s.drop i ≠ [] := by
    intro h
    have := congrArg List.length h
    rw [List.length_drop, List.length_nil] at this
    omega
  rw [groups_cons k hk _ hne, List.drop_drop]

theorem substr_of_le (s : List Char) (pos n : Nat) (h : pos ≤ s.length) :
    substr s pos n = some ((s.drop pos).take n) := by
  simp [substr, h]

theorem man_loop_eq (bitstring : List Char) :
    ∀ (fuel i : Nat) (out : List Char), bitstring.length - i ≤ fuel →
      man_loop bitstring fuel i out
        = some (out ++ (groups 2 (bitstring.drop i)).map man_symbol) := by
  intro fuel
  induction fuel with
  | zero =>
    intro i out h
    have hi : ¬ i < bitstring.length := by omega
    have hd : bitstring.drop i = [] := List.drop_eq_nil_of_le (by omega)
    simp [man_loop, hi, hd, groups_nil]
  | succ fuel ih =>
    intro i out h
    by_cases hi : i < bitstring.length
    · have hsub := substr_of_le bitstring i 2 (Nat.le_of_lt hi)
      rw [groups_drop 2 (by decide) bitstring i hi]
      simp only [man_loop, hi, if_true, hsub, Option.bind_eq_bind, Option.some_bind,
        List.map_cons]
      have h1 := ih (i + 2) (out ++ ['0']) (by omega)
      have h2 := ih (i + 2) (out ++ ['1']) (by omega)
      have h3 := ih (i + 2) (out ++ ['x']) (by omega)
      by_cases ha : (bitstring.drop i).take 2 = ['0', '1']
      · simp [ha, man_symbol, h1]
      · by_cases hb : (bitstring.drop i).take 2 = ['1', '0']
        · simp [hb, man_symbol, h2]
        · simp [ha, hb, man_symbol, h3]
    · have hd : bitstring.drop i = [] := List.drop_eq_nil_of_le (by omega)
      simp [man_loop, hi, hd, groups_nil]

theorem pwm_loop_eq (bitstring : List Char) :
    ∀ (fuel i : Nat) (out : List Char), bitstring.length - i ≤ fuel →
      pwm_loop bitstring fuel i out
        = some (out ++ (groups 3 (bitstring.drop i)).map pwm_symbol) := by
  intro fuel
  induction fuel with
  | zero =>
    intro i out h
    have hi : ¬ i < bitstring.length := by omega
    have hd : bitstring.drop i = [] := List.drop_eq_nil_of_le (by omega)
    simp [pwm_loop, hi, hd, groups_nil]
  | succ fuel ih =>
    intro i out h
    by_cases hi : i < bitstring.length
    · have hsub := substr_of_le bitstring i 3 (Nat.le_of_lt hi)
      rw [groups_drop 3 (by decide) bitstring i hi]
      simp only [pwm_loop, hi, if_true, hsub, Option.bind_eq_bind, Option.some_bind,
        List.map_cons]
      have h1 := ih (i + 3) (out ++ ['1']) (by omega)
      have h2 := ih (i + 3) (out ++ ['0']) (by omega)
      have h3 := ih (i + 3) (out ++ ['x']) (by omega)
      by_cases ha : (bitstring.drop i).take 3 = ['1', '0', '0']
      · simp [ha, pwm_symbol, h1]
      · by_cases hb : (bitstring.drop i).take 3 = ['1', '1', '0']
        · simp [hb, pwm_symbol, h2]
        · simp [ha, hb, pwm_symbol, h3]
    · have hd : bitstring.drop i = [] := List.drop_eq_nil_of_le (by omega)
      simp [pwm_loop, hi, hd, groups_nil]

theorem put_hex_w2_eq (v : Nat) (hv : v < 256) : put_hex_w2 v = two_hex_digits v := by
  interval_cases v <;> rfl

theorem bitset8_fold_eq (g : List Char) (hg : ∀ c ∈ g, c = '0' ∨ c = '1') :
    ∀ acc : Nat,
      g.foldlM (fun acc c =>
          if c = '0' then some (2 * acc) else if c = '1' then some (2 * acc + 1) else none) acc
        = some (g.foldl (fun acc c => 2 * acc + (if c = '1' then 1 else 0)) acc) := by
  induction g with
  | nil => intro acc; rfl
  | cons c rest ih =>
    intro acc
    have hrest : ∀ c ∈ rest, c = '0' ∨ c = '1' := fun x hx => hg x (List.mem_cons_of_mem _ hx)
    rcases hg c (List.mem_cons_self _ _) with h | h
    · subst h
      simpa [List.foldlM_cons] using ih hrest (2 * acc)
    · subst h
      simpa [List.foldlM_cons] using ih hrest (2 * acc + 1)

theorem bitset8_to_ulong_eq (g : List Char) (hg : ∀ c ∈ g, c = '0' ∨ c = '1')
    (hlen : g.length ≤ 8) : bitset8_to_ulong g = some (binary_value g) := by
  unfold bitset8_to_ulong binary_value
  rw [List.take_of_length_le hlen]
  exact bitset8_fold_eq g hg 0

theorem binary_fold_lt (g : List Char) :
    ∀ acc k : Nat, acc < 2 ^ k →
      g.foldl (fun acc c => 2 * acc + (if c = '1' then 1 else 0)) acc < 2 ^ (k + g.length) := by
  induction g with
  | nil => intro acc k h; simpa using h
  | cons c rest ih =>
    intro acc k h
    have hstep : 2 * acc + (if c = '1' then 1 else 0) < 2 ^ (k + 1) := by
      rw [Nat.pow_succ]; split_ifs <;> omega
    have := ih _ (k + 1) hstep
    simpa [List.foldl_cons, Nat.add_assoc, Nat.add_comm 1] using this

theorem binary_value_lt (g : List Char) : binary_value g < 2 ^ g.length := by
  have := binary_fold_lt g 0 0 (by decide)
  simpa [binary_value] using this

theorem mem_groups (k : Nat) (hk : 0 < k) (s g : List Char) (hg : g ∈ groups k s) :
    ∃ j, j * k < s.length ∧ g = (s.drop (j * k)).take k := by
  unfold groups at hg
  rw [List.mem_map] at hg
  obtain ⟨j, hj, rfl⟩ := hg
  refine ⟨j, ?_, rfl⟩
  rw [List.mem_range] at hj
  have h1 : (j + 1) * k ≤ s.length + k - 1 := (Nat.le_div_iff_mul_le hk).mp hj
  rw [Nat.succ_mul] at h1
  omega

theorem mem_groups_length (k : Nat) (hk : 0 < k) (s g : List Char) (hg : g ∈ groups k s) :
    1 ≤ g.length ∧ g.length ≤ k := by
  obtain ⟨j, hj, rfl⟩ := mem_groups k hk s g hg
  rw [List.length_take, List.length_drop]
  omega

theorem mem_groups_mem (k : Nat) (hk : 0 < k) (s g : List Char) (hg : g ∈ groups k s) :
    ∀ c ∈ g, c ∈ s := by
  obtain ⟨j, _, rfl⟩ := mem_groups k hk s g hg
  intro c hc
  exact List.mem_of_mem_drop (List.mem_of_mem_take hc)

theorem bitset_to_string_chars (b : List Bool) :
    ∀ c ∈ bitset_to_string b, c = '0' ∨ c = '1' := by
  intro c hc
  unfold bitset_to_string at hc
  rw [List.mem_map] at hc
  obtain ⟨x, _, rfl⟩ := hc
  cases x <;> simp

theorem hex_loop_eq (bitstring : List Char) (hchars : ∀ c ∈ bitstring, c = '0' ∨ c = '1') :
    ∀ (fuel i : Nat) (ss : List Char), bitstring.length - i ≤ fuel →
      hex_loop bitstring fuel i ss = some (ss ++ hex_of_groups (bitstring.drop i)) := by
  intro fuel
  induction fuel with
  | zero =>
    intro i ss h
    have hi : ¬ i < bitstring.length := by omega
    have hd : bitstring.drop i = [] := List.drop_eq_nil_of_le (by omega)
    simp [hex_loop, hi, hd, hex_of_groups, groups_nil]
  | succ fuel ih =>
    intro i ss h
    by_cases hi : i < bitstring.length
    · have hsub := substr_of_le bitstring i 8 (Nat.le_of_lt hi)
      have hgrp : ∀ c ∈ (bitstring.drop i).take 8, c = '0' ∨ c = '1' := fun c hc =>
        hchars c (List.mem_of_mem_drop (List.mem_of_mem_take hc))
      have hlen : ((bitstring.drop i).take 8).length ≤ 8 := by
        rw [List.length_take]; omega
      have hval := bitset8_to_ulong_eq _ hgrp hlen
      have hlt : binary_value ((bitstring.drop i).take 8) < 256 := by
        have h1 := binary_value_lt ((bitstring.drop i).take 8)
        have h2 : 2 ^ ((bitstring.drop i).take 8).length ≤ 2 ^ 8 :=
          Nat.pow_le_pow_right (by decide) hlen
        omega
      unfold hex_of_groups
      rw [groups_drop 8 (by decide) bitstring i hi]
      simp only [hex_loop, hi, if_true, hsub, hval, Option.bind_eq_bind, Option.some_bind,
        List.flatMap_cons]
      rw [ih (i + 8) _ (by omega), put_hex_w2_eq _ hlt]
      simp [hex_of_groups]
    · have hd : bitstring.drop i = [] := List.drop_eq_nil_of_le (by omega)
      simp [hex_loop, hi, hd, hex_of_groups, groups_nil]

theorem get_output_hex_string_eq (d_output : List Bool) :
    get_output_hex_string d_output = some (hex_of_groups (get_output_bit_string d_output)) := by
  unfold get_output_hex_string
  have := hex_loop_eq (get_output_bit_string d_output) (bitset_to_string_chars d_output)
    (get_output_bit_string d_output).length 0 [] (by omega)
  simpa using this

theorem get_output_man_string_eq (d_output : List Bool) :
    get_output_man_string d_output
      = some ((groups 2 (get_output_bit_string d_output)).map man_symbol) := by
  unfold get_output_man_string
  have := man_loop_eq (get_output_bit_string d_output)
    (get_output_bit_string d_output).length 0 [] (by omega)
  simpa using this

theorem get_output_pwm_string_eq (d_output : List Bool) :
    get_output_pwm_string d_output
      = some ((groups 3 (get_output_bit_string d_output)).map pwm_symbol) := by
  unfold get_output_pwm_string
  have := pwm_loop_eq (get_output_bit_string d_output)
    (get_output_bit_string d_output).length 0 [] (by omega)
  simpa using this

/-- C6: the hex string is, group by group of up to 8 bits, the two upper-case
zero-padded hex digits of the value of the group read as a binary number; a
short final group is read as it stands, its value staying below `2 ^ k` for
`k` bits. -/
theorem get_output_hex_string_spec (d_output : List Bool) :
    get_output_hex_string d_output = some (hex_of_groups (get_output_bit_string d_output))
    ∧ (∀ g ∈ groups 8 (get_output_bit_string d_output),
        1 ≤ g.length ∧ g.length ≤ 8 ∧ binary_value g < 2 ^ g.length
          ∧ bitset8_to_ulong g = some (binary_value g))
    ∧ get_output_bit_string (payload_of "0100001101010110") = "0100001101010110".toList
    ∧ get_output_hex_string (payload_of "0100001101010110") = some "4356".toList
    ∧ get_output_bit_string (payload_of "010000110101") = "010000110101".toList
    ∧ get_output_hex_string (payload_of "010000110101") = some "4305".toList := by
  refine ⟨get_output_hex_string_eq d_output, ?_, by decide, by decide, by decide, by decide⟩
  intro g hg
  have hl := mem_groups_length 8 (by decide) _ g hg
  refine ⟨hl.1, hl.2, binary_value_lt g, bitset8_to_ulong_eq g ?_ hl.2⟩
  intro c hc
  exact bitset_to_string_chars d_output c (mem_groups_mem 8 (by decide) _ g hg c hc)

/-- C7: the Manchester string has one character per group of two bits: `0`
for the group `01`, `1` for the group `10`, and `x` for every other group,
a trailing single bit included. -/
theorem get_output_man_string_spec (d_output : List Bool) :
    get_output_man_string d_output
      = some ((groups 2 (get_output_bit_string d_output)).map man_symbol)
    ∧ man_symbol "01".toList = '0' ∧ man_symbol "10".toList = '1'
    ∧ (∀ g : List Char, g ≠ "01".toList → g ≠ "10".toList → man_symbol g = 'x')
    ∧ man_symbol "00".toList = 'x' ∧ man_symbol "11".toList = 'x'
    ∧ man_symbol "0".toList = 'x' ∧ man_symbol "1".toList = 'x'
    ∧ get_output_bit_string (payload_of "0110") = "0110".toList
    ∧ get_output_man_string (payload_of "0110") = some "01".toList
    ∧ get_output_bit_string (payload_of "00") = "00".toList
    ∧ get_output_man_string (payload_of "00") = some "x".toList := by
  refine ⟨get_output_man_string_eq d_output, by decide, by decide, ?_, by decide, by decide,
    by decide, by decide, by decide, by decide, by decide, by decide⟩
  intro g h1 h2
  unfold man_symbol; rw [if_neg h1, if_neg h2]

/-- C8: the PWM string has one character per group of three bits: `1` for the
group `100`, `0` for the group `110`, and `x` for every other group, a
trailing group of one or two bits included. -/
theorem get_output_pwm_string_spec (d_output : List Bool) :
    get_output_pwm_string d_output
      = some ((groups 3 (get_output_bit_string d_output)).map pwm_symbol)
    ∧ pwm_symbol "100".toList = '1' ∧ pwm_symbol "110".toList = '0'
    ∧ (∀ g : List Char, g ≠ "100".toList → g ≠ "110".toList → pwm_symbol g = 'x')
    ∧ (∀ g : List Char, g.length < 3 → pwm_symbol g = 'x')
    ∧ get_output_bit_string (payload_of "100110") = "100110".toList
    ∧ get_output_pwm_string (payload_of "100110") = some "10".toList
    ∧ get_output_bit_string (payload_of "111") = "111".toList
    ∧ get_output_pwm_string (payload_of "111") = some "x".toList := by
  refine ⟨get_output_pwm_string_eq d_output, by decide, by decide, ?_, ?_, by decide, by decide,
    by decide, by decide⟩
  · intro g h1 h2
    unfold pwm_symbol; rw [if_neg h1, if_neg h2]
  · intro g hg
    have h1 : g ≠ "100".toList := by
      intro h; rw [h] at hg; exact absurd hg (by decide)
    have h2 : g ≠ "110".toList := by
      intro h; rw [h] at hg; exact absurd hg (by decide)
    unfold pwm_symbol; rw [if_neg h1, if_neg h2]

/-! ### Shift register (C9) -/

theorem shift_bit_eq (r : List Bool) (bit : Bool) (h : 1 ≤ r.length) :
    shift_bit r bit = some (bit :: r.dropLast) := by
  cases r with
  | nil => simp at h
  | cons x t =>
    have h1 : List.take t.length (x :: t) = (x :: t).dropLast := by
      rw [List.dropLast_eq_take]; simp
    simp [shift_bit, bitset_shl1, bitset_assign, h1]

theorem shift_bit_fold (bs : List Bool) :
    ∀ r : List Bool, 1 ≤ r.length →
      ∃ r1, bs.foldlM shift_bit r = some r1 ∧ r1.length = r.length
        ∧ r1.reverse = (r.reverse ++ bs).drop bs.length := by
  induction bs with
  | nil => intro r _; exact ⟨r, rfl, rfl, by simp⟩
  | cons b rest ih =>
    intro r hr
    have hlen : (b :: r.dropLast).length = r.length := by
      rw [List.length_cons, List.length_dropLast]; omega
    obtain ⟨r1, h1, h2, h3⟩ := ih (b :: r.dropLast) (by rw [hlen]; exact hr)
    refine ⟨r1, ?_, by rw [h2, hlen], ?_⟩
    · rw [List.foldlM_cons, shift_bit_eq r b hr]
      exact h1
    · rw [h3, List.reverse_cons, ← List.tail_reverse]
      cases hrev : r.reverse with
      | nil =>
        have := congrArg List.length hrev
        rw [List.length_reverse, List.length_nil] at this; omega
      | cons x t => simp

/-- C9: for a register of any capacity `c ≥ 1`, shifting in the bits `bs` one
by one leaves the register, read from the highest position down, equal to the
last `c` elements of its initial reading followed by `bs`; one shift keeps the
size, puts the new bit at position 0 and moves the bit of every position `i`
to position `i + 1`, the bit of the highest position being dropped. -/
theorem shift_bit_stream (r bs : List Bool) (hc : 1 ≤ r.length) :
    (∃ r1, bs.foldlM shift_bit r = some r1 ∧ r1.length = r.length
      ∧ r1.reverse = (r.reverse ++ bs).drop ((r.reverse ++ bs).length - r.length))
    ∧ (∀ bit, ∃ r1, shift_bit r bit = some r1 ∧ r1.length = r.length ∧ r1[0]? = some bit
        ∧ (∀ i, i + 1 < r.length → r1[i + 1]? = r[i]?)
        ∧ r1.reverse = r.reverse.tail ++ [bit]) := by
  constructor
  · obtain ⟨r1, h1, h2, h3⟩ := shift_bit_fold bs r hc
    refine ⟨r1, h1, h2, ?_⟩
    rw [h3]; congr 1; simp
  · intro bit
    refine ⟨bit :: r.dropLast, shift_bit_eq r bit hc, ?_, by simp, ?_, ?_⟩
    · rw [List.length_cons, List.length_dropLast]; omega
    · intro i hi
      rw [List.getElem?_cons_succ, List.dropLast_eq_take, List.getElem?_take]
      simp; omega
    · rw [List.reverse_cons, List.tail_reverse]

/-- Witness of `shift_bit_stream`: a 3-bit register reading `010` receives `1`, `1`. -/
theorem shift_bit_stream_witness :
    1 ≤ [false, true, false].length
    ∧ [true, true].foldlM shift_bit [false, true, false] = some [true, true, false]
    ∧ ((∃ r1, [true, true].foldlM shift_bit [false, true, false] = some r1
        ∧ r1.length = [false, true, false].length
        ∧ r1.reverse = ([false, true, false].reverse ++ [true, true]).drop
            (([false, true, false].reverse ++ [true, true]).length - [false, true, false].length))
      ∧ (∀ bit, ∃ r1, shift_bit [false, true, false] bit = some r1
        ∧ r1.length = [false, true, false].length ∧ r1[0]? = some bit
        ∧ (∀ i, i + 1 < [false, true, false].length → r1[i + 1]? = [false, true, false][i]?)
        ∧ r1.reverse = [false, true, false].reverse.tail ++ [bit])) :=
  ⟨by decide, by decide, shift_bit_stream [false, true, false] [true, true] (by decide)⟩

/-! ### Output formatter (C10) -/

theorem format_output_eq (fmt : List Char) (rel : Bool) (d_output : List Bool) (clk : Clock) :
    format_output fmt rel d_output clk
      = some (replace_all (replace_all (replace_all (replace_all
          (if rel then replace_all fmt "%s".toList clk.rel_time else clk.strftime fmt)
          "%[bits]".toList (get_output_bit_string d_output))
          "%[hex]".toList (hex_of_groups (get_output_bit_string d_output)))
          "%[man-bits]".toList ((groups 2 (get_output_bit_string d_output)).map man_symbol))
          "%[pwm-bits]".toList ((groups 3 (get_output_bit_string d_output)).map pwm_symbol)) := by
  simp only [format_output, get_output_hex_string_eq, get_output_man_string_eq,
    get_output_pwm_string_eq, Option.bind_eq_bind, Option.some_bind, Option.pure_def, bind_pure_comp]

theorem replace_all_scan_skip (search fmt : List Char) :
    ∀ (l : List Char) (k : Nat),
      replace_all_scan search fmt k l = replace_all_scan search fmt 0 (l.drop k) := by
  intro l
  induction l with
  | nil => intro k; cases k <;> simp [replace_all_scan]
  | cons c rest ih =>
    intro k
    cases k with
    | zero => rfl
    | succ k => simp [replace_all_scan, ih k]

theorem replace_all_scan_not_mem (search fmt : List Char) (c0 : Char) (tl : List Char)
    (hs : search = c0 :: tl) :
    ∀ l : List Char, c0 ∉ l → replace_all_scan search fmt 0 l = l := by
  intro l
  induction l with
  | nil => intro _; rfl
  | cons c rest ih =>
    intro h
    have hc : c0 ≠ c := fun e => h (by simp [e])
    have hr : c0 ∉ rest := fun e => h (List.mem_cons_of_mem _ e)
    subst hs
    simp [replace_all_scan, List.isPrefixOf, hc, ih hr]

theorem replace_all_not_mem (search fmt : List Char) (c0 : Char) (tl : List Char)
    (hs : search = c0 :: tl) (l : List Char) (h : c0 ∉ l) : replace_all l search fmt = l := by
  unfold replace_all
  split
  · rfl
  · exact replace_all_scan_not_mem search fmt c0 tl hs l h

theorem not_infix_dropLast (search : List Char) (hs : search ≠ []) :
    ¬ search <:+: search.dropLast := by
  intro h
  have h1 := h.length_le
  have h2 : 0 < search.length := List.length_pos.mpr hs
  rw [List.length_dropLast] at h1
  omega

theorem replace_all_scan_replaced (search fmt : List Char) (hs : search ≠ []) :
    ∀ (n : Nat) (l : List Char), l.length ≤ n →
      Replaced search fmt l (replace_all_scan search fmt 0 l) := by
  intro n
  induction n with
  | zero =>
    intro l hl
    have : l = [] := List.length_eq_zero.mp (by omega)
    subst this
    exact Replaced.none [] (by simpa [List.infix_nil] using hs)
  | succ n ih =>
    intro l hl
    cases l with
    | nil => exact Replaced.none [] (by simpa [List.infix_nil] using hs)
    | cons c rest =>
      have hpos : 0 < search.length := List.length_pos.mpr hs
      by_cases hp : search.isPrefixOf (c :: rest) = true
      · have hpre : search <+: c :: rest := List.isPrefixOf_iff_prefix.mp hp
        obtain ⟨t, ht⟩ := hpre
        have hdrop : rest.drop (search.length - 1) = t := by
          have h1 : (c :: rest).drop search.length = t := by
            rw [← ht]; simp
          have h2 : search.length = (search.length - 1) + 1 := by omega
          rw [h2, List.drop_succ_cons] at h1
          exact h1
        have htlen : t.length ≤ n := by
          have := congrArg List.length ht
          simp only [List.length_append, List.length_cons] at this
          simp only [List.length_cons] at hl
          omega
        have hrec := ih t htlen
        have hstep := @Replaced.first search fmt [] t _
          (by simpa using not_infix_dropLast search hs) hrec
        simp only [List.nil_append] at hstep
        rw [ht] at hstep
        simpa [replace_all_scan, hp, replace_all_scan_skip search fmt rest, hdrop] using hstep
      · have hrec := ih rest (by simp only [List.length_cons] at hl; omega)
        have hscan : replace_all_scan search fmt 0 (c :: rest)
            = c :: replace_all_scan search fmt 0 rest := by
          simp [replace_all_scan, hp]
        rw [hscan]
        have hnp : ¬ search <+: c :: rest := fun h => hp (List.isPrefixOf_iff_prefix.mpr h)
        generalize replace_all_scan search fmt 0 rest = r at hrec
        cases hrec with
        | none _ hno =>
          refine Replaced.none _ ?_
          rw [List.infix_cons_iff]
          rintro (h | h)
          · exact hnp h
          · exact hno h
        | first u t t' hfirst hrest =>
          have := @Replaced.first search fmt (c :: u) t t' ?_ hrest
          · simpa using this
          · rw [List.cons_append, List.infix_cons_iff]
            rintro (h | h)
            · apply hnp
              refine h.trans ?_
              refine ⟨[search.getLast hs] ++ t, ?_⟩
              have hlast : search.dropLast ++ [search.getLast hs] = search :=
                List.dropLast_append_getLast hs
              conv_rhs => rw [← hlast]
              simp
            · exact hfirst h

theorem replace_all_replaced (search fmt input : List Char) (hs : search ≠ []) :
    Replaced search fmt input (replace_all input search fmt) := by
  unfold replace_all
  rw [if_neg hs]
  exact replace_all_scan_replaced search fmt hs input.length input (Nat.le_refl _)
theorem first_occurrence_lt_absurd (s u t u2 t2 : List Char) (hs : s ≠ [])
    (heq : u ++ s ++ t = u2 ++ s ++ t2) (h2 : ¬ s <:+: u2 ++ s.dropLast)
    (hlt : u.length < u2.length) : False := by
  have hpos : 0 < s.length := List.length_pos.mpr hs
  have hlast : s.dropLast ++ [s.getLast hs] = s := List.dropLast_append_getLast hs
  have hu1 : u <+: u ++ s ++ t := ⟨s ++ t, by simp⟩
  have hu2 : u2 <+: u ++ s ++ t := by rw [heq]; exact ⟨s ++ t2, by simp⟩
  have hu : u <+: u2 := List.prefix_of_prefix_length_le hu1 hu2 (by omega)
  obtain ⟨v, rfl⟩ := hu
  have heq2 : s ++ t = v ++ s ++ t2 := by
    have : u ++ (s ++ t) = u ++ (v ++ s ++ t2) := by simpa using heq
    exact List.append_cancel_left this
  have hvlen : 0 < v.length := by
    simp only [List.length_append] at hlt; omega
  have hp1 : s <+: v ++ s ++ t2 := by rw [← heq2]; exact ⟨t, rfl⟩
  have hp2 : v ++ s.dropLast <+: v ++ s ++ t2 := by
    refine ⟨[s.getLast hs] ++ t2, ?_⟩
    conv_rhs => rw [← hlast]
    simp
  have hpre : s <+: v ++ s.dropLast :=
    List.prefix_of_prefix_length_le hp1 hp2
      (by rw [List.length_append, List.length_dropLast]; omega)
  apply h2
  obtain ⟨w, hw⟩ := hpre
  exact ⟨u, w, by rw [List.append_assoc, hw, List.append_assoc]⟩

theorem first_occurrence_unique (s u t u2 t2 : List Char) (hs : s ≠ [])
    (heq : u ++ s ++ t = u2 ++ s ++ t2) (h1 : ¬ s <:+: u ++ s.dropLast)
    (h2 : ¬ s <:+: u2 ++ s.dropLast) : u = u2 ∧ t = t2 := by
  have hlen : u.length = u2.length := by
    rcases Nat.lt_trichotomy u.length u2.length with h | h | h
    · exact (first_occurrence_lt_absurd s u t u2 t2 hs heq h2 h).elim
    · exact h
    · exact (first_occurrence_lt_absurd s u2 t2 u t hs heq.symm h1 h).elim
  have h3 : u ++ (s ++ t) = u2 ++ (s ++ t2) := by simpa using heq
  have h4 := List.append_inj h3 hlen
  exact ⟨h4.1, List.append_cancel_left h4.2⟩

theorem replaced_unique (search fmt : List Char) (hs : search ≠ []) (l r1 r2 : List Char)
    (h1 : Replaced search fmt l r1) (h2 : Replaced search fmt l r2) : r1 = r2 := by
  induction h1 generalizing r2 with
  | none input hno =>
    cases h2 with
    | none _ _ => rfl
    | first u t t' _ _ => exact (hno ⟨u, t, rfl⟩).elim
  | first u t t' hfirst hrest ih =>
    generalize hl : u ++ search ++ t = l at h2
    cases h2 with
    | none _ hno => exact (hno ⟨u, t, hl⟩).elim
    | first u2 t2 t2' hfirst2 hrest2 =>
      obtain ⟨rfl, rfl⟩ := first_occurrence_unique search u t u2 t2 hs hl hfirst hfirst2
      rw [ih t2' hrest2]
/-- C10: in relative-time mode `format_output` succeeds and returns the
template in which every `%s` was replaced by the elapsed-seconds text and
then, one token after the other, every `%[bits]`, `%[hex]`, `%[man-bits]` and
`%[pwm-bits]` by the matching encoding of the payload; the text is determined
by these replacements and nothing is appended to it. A template without `%`
comes back unchanged, and `%[bits] %[hex]` on `0100001101010110` gives
`0100001101010110 4356`. -/
theorem format_output_rel_spec (fmt : List Char) (d_output : List Bool) (clk : Clock) :
    (∃ hex man pwm t1 t2 t3 t4 out,
      get_output_hex_string d_output = some hex
      ∧ get_output_man_string d_output = some man
      ∧ get_output_pwm_string d_output = some pwm
      ∧ Replaced "%s".toList clk.rel_time fmt t1
      ∧ Replaced "%[bits]".toList (get_output_bit_string d_output) t1 t2
      ∧ Replaced "%[hex]".toList hex t2 t3
      ∧ Replaced "%[man-bits]".toList man t3 t4
      ∧ Replaced "%[pwm-bits]".toList pwm t4 out
      ∧ format_output fmt true d_output clk = some out
      ∧ (∀ u1 u2 u3 u4 res,
          Replaced "%s".toList clk.rel_time fmt u1
          → Replaced "%[bits]".toList (get_output_bit_string d_output) u1 u2
          → Replaced "%[hex]".toList hex u2 u3
          → Replaced "%[man-bits]".toList man u3 u4
          → Replaced "%[pwm-bits]".toList pwm u4 res
          → res = out))
    ∧ ('%' ∉ fmt → format_output fmt true d_output clk = some fmt)
    ∧ get_output_bit_string (payload_of "0100001101010110") = "0100001101010110".toList
    ∧ format_output "%[bits] %[hex]".toList true (payload_of "0100001101010110") clk
        = some "0100001101010110 4356".toList := by
  refine ⟨?_, ?_, by decide, ?_⟩
  · refine ⟨_, _, _, _, _, _, _, _, get_output_hex_string_eq d_output,
      get_output_man_string_eq d_output, get_output_pwm_string_eq d_output,
      replace_all_replaced _ _ fmt (by decide),
      replace_all_replaced _ _ _ (by decide),
      replace_all_replaced _ _ _ (by decide),
      replace_all_replaced _ _ _ (by decide),
      replace_all_replaced _ _ _ (by decide), ?_, ?_⟩
    · rw [format_output_eq]; rfl
    · intro u1 u2 u3 u4 res h1 h2 h3 h4 h5
      have e1 := replaced_unique _ _ (by decide) _ _ _ h1
        (replace_all_replaced "%s".toList clk.rel_time fmt (by decide))
      subst e1
      have e2 := replaced_unique _ _ (by decide) _ _ _ h2
        (replace_all_replaced "%[bits]".toList (get_output_bit_string d_output) _ (by decide))
      subst e2
      have e3 := replaced_unique _ _ (by decide) _ _ _ h3
        (replace_all_replaced "%[hex]".toList _ _ (by decide))
      subst e3
      have e4 := replaced_unique _ _ (by decide) _ _ _ h4
        (replace_all_replaced "%[man-bits]".toList _ _ (by decide))
      subst e4
      exact replaced_unique _ _ (by decide) _ _ _ h5
        (replace_all_replaced "%[pwm-bits]".toList _ _ (by decide))
  · intro h
    rw [format_output_eq]
    simp only [if_true]
    rw [replace_all_not_mem "%s".toList _ '%' "s".toList rfl fmt h,
      replace_all_not_mem "%[bits]".toList _ '%' "[bits]".toList rfl fmt h,
      replace_all_not_mem "%[hex]".toList _ '%' "[hex]".toList rfl fmt h,
      replace_all_not_mem "%[man-bits]".toList _ '%' "[man-bits]".toList rfl fmt h,
      replace_all_not_mem "%[pwm-bits]".toList _ '%' "[pwm-bits]".toList rfl fmt h]
  · have h : replace_all "%[bits] %[hex]".toList "%s".toList clk.rel_time
        = "%[bits] %[hex]".toList := rfl
    rw [format_output_eq]
    simp only [if_true]
    rw [h]
    decide

/-! ### The `work` loop: scanning and capturing (C1, C3, C4) -/

theorem reg_after_nil (r : List Bool) : reg_after r [] = r := by
  simp [reg_after]

theorem reg_after_length (r q : List Bool) : (reg_after r q).length = r.length := by
  simp [reg_after]

theorem reg_after_full (r q : List Bool) (h : r.length ≤ q.length) :
    reg_after r q = (q.drop (q.length - r.length)).reverse := by
  unfold reg_after
  rw [List.drop_append_eq_append_drop, List.drop_eq_nil_of_le (by simpa using h)]
  simp

theorem shift_bit_reg_after (r q : List Bool) (b : Bool) (hr : 1 ≤ r.length) :
    shift_bit (reg_after r q) b = some (reg_after r (q ++ [b])) := by
  rw [shift_bit_eq _ _ (by rw [reg_after_length]; exact hr)]
  have hX : ((r.reverse ++ q).drop q.length).tail ++ [b]
      = (r.reverse ++ (q ++ [b])).drop (q ++ [b]).length := by
    have hle : q.length + 1 ≤ (r.reverse ++ q).length := by
      rw [List.length_append, List.length_reverse]; omega
    rw [List.tail_drop, List.length_append, List.length_singleton, ← List.append_assoc,
      @List.drop_append_of_le_length _ (r.reverse ++ q) [b] (q.length + 1) hle]
  unfold reg_after
  rw [List.dropLast_reverse, ← hX]
  simp

theorem work_loop_cons_none (clk : Nat → Clock) (i : Nat) (x : Fin 256) (rest : List (Fin 256))
    (st st1 : pattern_dump_impl) (h : work_item st (clk i) x = some (st1, none)) :
    work_loop clk i (x :: rest) st = work_loop clk (i + 1) rest st1 := by
  simp only [work_loop, h, Option.bind_eq_bind, Option.some_bind, Option.toList_none,
    List.nil_append]
  cases work_loop clk (i + 1) rest st1 <;> rfl

theorem mstate_nil (st : pattern_dump_impl) (h : st.d_pattern_check_len = 0) :
    mstate st [] = st := by
  cases st
  simp only [mstate, reg_after_nil] at *
  subst h
  simp

theorem locked_mstate (st : pattern_dump_impl) (P q : List Bool)
    (hsize : st.d_pattern_check.length = P.length) (hpat : st.d_pattern = P.reverse) :
    locked (mstate st q) ↔ ends_with P q := by
  unfold locked mstate ends_with
  simp only [reg_after_length, hsize, hpat]
  constructor
  · rintro ⟨h1, h2⟩
    have hle : P.length ≤ q.length := by omega
    refine ⟨hle, ?_⟩
    rw [reg_after_full _ _ (by omega)] at h2
    have := congrArg List.reverse h2
    simpa [hsize] using this
  · rintro ⟨h1, h2⟩
    refine ⟨by omega, ?_⟩
    rw [reg_after_full _ _ (by omega), hsize, h2]

theorem work_item_mstate (st : pattern_dump_impl) (q : List Bool) (c : Clock) (x : Fin 256)
    (hsize : 1 ≤ st.d_pattern_check.length) (hnl : ¬ locked (mstate st q)) :
    work_item (mstate st q) c x = some (mstate st (q ++ [to_bool x]), none) := by
  unfold work_item
  rw [if_neg hnl]
  unfold match_bit
  have hs : shift_bit (mstate st q).d_pattern_check (to_bool x)
      = some (reg_after st.d_pattern_check (q ++ [to_bool x])) :=
    shift_bit_reg_after _ _ _ hsize
  rw [hs]
  simp only [Option.bind_eq_bind, Option.some_bind, Option.map_some', mstate, reg_after_length,
    List.length_append, List.length_singleton]
  congr 3
  push_cast
  omega

theorem scan_prefix (clk : Nat → Clock) (st : pattern_dump_impl) (P : List Bool)
    (hn : 1 ≤ P.length) (hsize : st.d_pattern_check.length = P.length)
    (hpat : st.d_pattern = P.reverse) (rest2 : List (Fin 256)) :
    ∀ (a : List (Fin 256)) (q : List Bool) (i : Nat),
      (∀ m, m < a.length → ¬ ends_with P (q ++ (a.take m).map to_bool)) →
      work_loop clk i (a ++ rest2) (mstate st q)
        = work_loop clk (i + a.length) rest2 (mstate st (q ++ a.map to_bool)) := by
  intro a
  induction a with
  | nil => intro q i _; simp
  | cons x a ih =>
    intro q i h
    have h0 : ¬ locked (mstate st q) := by
      rw [locked_mstate st P q hsize hpat]
      simpa using h 0 (by simp)
    have hstep := work_item_mstate st q (clk i) x (by omega) h0
    rw [List.cons_append, work_loop_cons_none clk i x (a ++ rest2) _ _ hstep]
    rw [ih (q ++ [to_bool x]) (i + 1)]
    · simp [Nat.add_assoc, Nat.add_comm 1]
    · intro m hm
      have := h (m + 1) (by simpa using hm)
      simpa using this

theorem drop_set_self :
    ∀ (b : List Bool) (k : Nat) (v : Bool), k < b.length →
      (b.set k v).drop k = v :: b.drop (k + 1) := by
  intro b
  induction b with
  | nil => intro k v h; simp at h
  | cons y t ih =>
    intro k v h
    cases k with
    | zero => simp
    | succ k =>
      simp only [List.length_cons] at h
      simpa using ih k v (by omega)

theorem copy_pattern_eq :
    ∀ (pattern : List (Fin 256)) (b : List Bool), pattern.length ≤ b.length →
      copy_pattern pattern ((pattern.length : Int) - 1) b
        = (pattern.map to_bool).reverse ++ b.drop pattern.length := by
  intro pattern
  induction pattern with
  | nil => intro b _; simp [copy_pattern]
  | cons x rest ih =>
    intro b hb
    simp only [List.length_cons] at hb
    have hidx : (((x :: rest).length : Int) - 1).toNat = rest.length := by simp
    have hnext : ((x :: rest).length : Int) - 1 - 1 = (rest.length : Int) - 1 := by
      simp
    unfold copy_pattern
    rw [hidx, hnext, ih _ (by rw [List.length_set]; omega)]
    rw [drop_set_self b rest.length (to_bool x) (by omega)]
    simp

theorem make_d_pattern (pattern : List (Fin 256)) (d : Nat) (fmt : List Char) (rel : Bool) :
    (make pattern d fmt rel).d_pattern = (pattern.map to_bool).reverse := by
  unfold make
  simp only
  rw [copy_pattern_eq pattern _ (by simp [bitset_new])]
  simp [bitset_new]

theorem bitset_to_string_reverse (p : List Bool) :
    get_output_bit_string p.reverse = bit_string p := by
  simp [get_output_bit_string, bitset_to_string, bit_string]

theorem make_rearmed (pattern : List (Fin 256)) (d : Nat) (fmt : List Char) (rel : Bool) :
    (make pattern d fmt rel).d_pattern_check.length = (pattern.map to_bool).length
    ∧ (make pattern d fmt rel).d_pattern = (pattern.map to_bool).reverse
    ∧ (make pattern d fmt rel).d_output.length = d
    ∧ (make pattern d fmt rel).d_pattern_check_len = 0
    ∧ (make pattern d fmt rel).d_output_len = 0 := by
  refine ⟨?_, make_d_pattern pattern d fmt rel, ?_, rfl, rfl⟩
  · simp [make, bitset_new]
  · simp [make, bitset_new]

theorem not_ends_with_short (P w : List Bool) (h : w.length < P.length) : ¬ ends_with P w := by
  intro hw
  have := hw.1
  omega

theorem shift_bit_length (r r1 : List Bool) (b : Bool) (h : shift_bit r b = some r1) :
    r1.length = r.length := by
  unfold shift_bit bitset_assign at h
  split at h
  · injection h with h
    rw [← h]
    simp [bitset_shl1]
  · cases h

theorem match_bit_mstate (st : pattern_dump_impl) (q : List Bool) (b : Bool)
    (hsize : 1 ≤ st.d_pattern_check.length) :
    match_bit (mstate st q) b = some (mstate st (q ++ [b])) := by
  unfold match_bit
  have hs : shift_bit (mstate st q).d_pattern_check b
      = some (reg_after st.d_pattern_check (q ++ [b])) :=
    shift_bit_reg_after _ _ _ hsize
  rw [hs]
  simp only [Option.bind_eq_bind, Option.some_bind, mstate, reg_after_length,
    List.length_append, List.length_singleton]
  congr 2
  push_cast
  omega

theorem match_bit_fold (st : pattern_dump_impl) (hsize : 1 ≤ st.d_pattern_check.length) :
    ∀ (bits q : List Bool),
      bits.foldlM match_bit (mstate st q) = some (mstate st (q ++ bits)) := by
  intro bits
  induction bits with
  | nil => intro q; simp
  | cons b rest ih =>
    intro q
    rw [List.foldlM_cons, match_bit_mstate st q b hsize]
    simpa using ih (q ++ [b])

theorem work_item_inv (st st1 : pattern_dump_impl) (c : Clock) (x : Fin 256) (fo : Option Frame)
    (h : work_item st c x = some (st1, fo)) :
    st1.d_pattern_check.length = st.d_pattern_check.length
    ∧ st1.d_output.length = st.d_output.length
    ∧ st1.d_pattern = st.d_pattern
    ∧ st1.d_output_fmt = st.d_output_fmt
    ∧ st1.d_rel_time = st.d_rel_time := by
  unfold work_item at h
  split at h
  · unfold capture_bit at h
    cases hs : shift_bit st.d_output (to_bool x) with
    | none => simp [hs] at h
    | some r1 =>
      have hlen := shift_bit_length _ _ _ hs
      simp only [hs, Option.bind_eq_bind, Option.some_bind, format_output_eq] at h
      split at h
      · simp only [Option.some.injEq, Prod.mk.injEq] at h
        obtain ⟨h, _⟩ := h
        subst h
        simp [hlen]
      · simp only [Option.some.injEq, Prod.mk.injEq] at h
        obtain ⟨h, _⟩ := h
        subst h
        simp [hlen]
  · unfold match_bit at h
    cases hs : shift_bit st.d_pattern_check (to_bool x) with
    | none => simp [hs] at h
    | some r1 =>
      have hlen := shift_bit_length _ _ _ hs
      simp only [hs, Option.bind_eq_bind, Option.some_bind, Option.map_some', Option.some.injEq,
        Prod.mk.injEq] at h
      obtain ⟨h, _⟩ := h
      subst h
      simp [hlen]

theorem work_loop_inv (clk : Nat → Clock) :
    ∀ (s : List (Fin 256)) (i : Nat) (st st1 : pattern_dump_impl) (frames : List Frame),
      work_loop clk i s st = some (st1, frames) →
      st1.d_pattern_check.length = st.d_pattern_check.length
      ∧ st1.d_output.length = st.d_output.length
      ∧ st1.d_pattern = st.d_pattern
      ∧ st1.d_output_fmt = st.d_output_fmt
      ∧ st1.d_rel_time = st.d_rel_time := by
  intro s
  induction s with
  | nil =>
    intro i st st1 frames h
    simp only [work_loop, Option.some.injEq, Prod.mk.injEq] at h
    obtain ⟨h, _⟩ := h
    subst h
    exact ⟨rfl, rfl, rfl, rfl, rfl⟩
  | cons x rest ih =>
    intro i st st1 frames h
    cases hw : work_item st (clk i) x with
    | none => simp [work_loop, hw] at h
    | some r =>
      obtain ⟨st2, fo⟩ := r
      cases hr : work_loop clk (i + 1) rest st2 with
      | none => simp [work_loop, hw, hr] at h
      | some r2 =>
        obtain ⟨st3, fs⟩ := r2
        simp only [work_loop, hw, hr, Option.bind_eq_bind, Option.some_bind, Option.some.injEq,
          Prod.mk.injEq] at h
        obtain ⟨h, _⟩ := h
        subst h
        obtain ⟨a1, a2, a3, a4, a5⟩ := work_item_inv st st2 (clk i) x fo hw
        obtain ⟨b1, b2, b3, b4, b5⟩ := ih (i + 1) st2 st3 fs hr
        exact ⟨b1.trans a1, b2.trans a2, b3.trans a3, b4.trans a4, b5.trans a5⟩

/-- C2: a matcher with `check_len = 0` (freshly constructed or just re-armed,
whatever its register holds) that is fed `k` bits is locked after the last of
them exactly when `k ≥ n` and the last `n` bits fed are the pattern, oldest
bit against the first pattern element; in particular it is not locked before
`n` bits have arrived. As long as no earlier prefix locked it, `work` feeds
every input bit to the matcher, reaches that same state and emits nothing. -/
theorem matcher_locked_iff (pattern input : List (Fin 256)) (st : pattern_dump_impl)
    (clk : Nat → Clock) (hn : 1 ≤ pattern.length)
    (hsize : st.d_pattern_check.length = pattern.length)
    (hpat : st.d_pattern
      = copy_pattern pattern ((pattern.length : Int) - 1) (bitset_new pattern.length))
    (h0 : st.d_pattern_check_len = 0) :
    ∃ st1, (input.map to_bool).foldlM match_bit st = some st1
      ∧ (locked st1 ↔
          pattern.length ≤ input.length
            ∧ (input.map to_bool).drop (input.length - pattern.length) = pattern.map to_bool)
      ∧ (input.length < pattern.length → ¬ locked st1)
      ∧ ((∀ k, k < input.length →
            ¬ (pattern.length ≤ k
              ∧ ((input.take k).map to_bool).drop (k - pattern.length) = pattern.map to_bool))
          → work st clk input = some (st1, [])) := by
  have hpat2 : st.d_pattern = (pattern.map to_bool).reverse := by
    rw [hpat, copy_pattern_eq pattern _ (by simp [bitset_new])]
    simp [bitset_new]
  have hfold := match_bit_fold st (by omega) (input.map to_bool) []
  rw [mstate_nil st h0, List.nil_append] at hfold
  have hlock := locked_mstate st (pattern.map to_bool) (input.map to_bool)
    (by simpa using hsize) hpat2
  have hiff : locked (mstate st (input.map to_bool)) ↔
      pattern.length ≤ input.length
        ∧ (input.map to_bool).drop (input.length - pattern.length) = pattern.map to_bool := by
    rw [hlock]
    simp [ends_with]
  refine ⟨mstate st (input.map to_bool), hfold, hiff, ?_, ?_⟩
  · intro hlt hl
    have := (hiff.mp hl).1
    omega
  · intro hno
    have h1 := scan_prefix clk st (pattern.map to_bool) (by simpa using hn)
      (by simpa using hsize) hpat2 [] input [] 0 (by
        intro m hm hend
        apply hno m hm
        simpa [ends_with, Nat.min_eq_left (Nat.le_of_lt hm)] using hend)
    rw [mstate_nil st h0] at h1
    simp only [List.append_nil, List.nil_append] at h1
    unfold work
    rw [h1]
    rfl

/-- Witness of `matcher_locked_iff`: the all-zero pattern `000` on the freshly
constructed state, fed two zero bits, is not locked; fed three, it is. -/
theorem matcher_locked_iff_witness :
    (1 ≤ ([0, 0, 0] : List (Fin 256)).length
      ∧ (make [0, 0, 0] 2 [] true).d_pattern_check.length = ([0, 0, 0] : List (Fin 256)).length
      ∧ (make [0, 0, 0] 2 [] true).d_pattern
          = copy_pattern [0, 0, 0] ((([0, 0, 0] : List (Fin 256)).length : Int) - 1)
              (bitset_new ([0, 0, 0] : List (Fin 256)).length)
      ∧ (make [0, 0, 0] 2 [] true).d_pattern_check_len = 0)
    ∧ (∃ st1, (([0, 0] : List (Fin 256)).map to_bool).foldlM match_bit (make [0, 0, 0] 2 [] true)
          = some st1 ∧ ¬ locked st1)
    ∧ (∃ st1, (([0, 0, 0] : List (Fin 256)).map to_bool).foldlM match_bit
          (make [0, 0, 0] 2 [] true) = some st1 ∧ locked st1) :=
  ⟨⟨by decide, by decide, by decide, by decide⟩,
    by
      obtain ⟨st1, h1, _, h3, _⟩ := matcher_locked_iff [0, 0, 0] [0, 0]
        (make [0, 0, 0] 2 [] true) (fun _ => ⟨[], id⟩) (by decide) (by decide) (by decide)
        (by decide)
      exact ⟨st1, h1, h3 (by decide)⟩,
    by
      obtain ⟨st1, h1, h2, _, _⟩ := matcher_locked_iff [0, 0, 0] [0, 0, 0]
        (make [0, 0, 0] 2 [] true) (fun _ => ⟨[], id⟩) (by decide) (by decide) (by decide)
        (by decide)
      exact ⟨st1, h1, h2.mpr (by decide)⟩⟩

theorem work_item_frame (st st1 : pattern_dump_impl) (c : Clock) (x : Fin 256) (f : Frame)
    (h : work_item st c x = some (st1, some f)) :
    st1.d_pattern_check_len = 0 ∧ st1.d_output_len = 0 ∧ locked st
      ∧ st.d_output_len + 1 = (st.d_output.length : Int) := by
  unfold work_item at h
  split at h
  · rename_i hl
    unfold capture_bit at h
    cases hs : shift_bit st.d_output (to_bool x) with
    | none => simp [hs] at h
    | some r1 =>
      have hlen := shift_bit_length _ _ _ hs
      simp only [hs, Option.bind_eq_bind, Option.some_bind, format_output_eq] at h
      split at h
      · rename_i hfull
        simp only [Option.some.injEq, Prod.mk.injEq] at h
        obtain ⟨h, _⟩ := h
        subst h
        refine ⟨rfl, rfl, hl, ?_⟩
        rw [hfull, hlen]
      · simp at h
  · cases hm : match_bit st (to_bool x) <;> simp [hm] at h

/-- C5: in any run from the constructed state (pattern length `n ≥ 1`), right
after a step that completes a frame both counters are 0, and whatever up to
`n - 1` items follow, `work` on them emits nothing and leaves the matcher
not locked: a match needs `n` bits received after the reset. -/
theorem rearm_after_frame (pattern : List (Fin 256)) (dump_len : Nat) (fmt : List Char)
    (rel : Bool) (clk : Nat → Clock) (pre : List (Fin 256)) (frames : List Frame)
    (st st1 : pattern_dump_impl) (c : Clock) (x : Fin 256) (f : Frame)
    (hn : 1 ≤ pattern.length)
    (hrun : work (make pattern dump_len fmt rel) clk pre = some (st, frames))
    (hframe : work_item st c x = some (st1, some f)) :
    st1.d_pattern_check_len = 0 ∧ st1.d_output_len = 0
    ∧ ∀ (clk2 : Nat → Clock) (cont : List (Fin 256)), cont.length ≤ pattern.length - 1 →
        ∃ st2, work st1 clk2 cont = some (st2, []) ∧ ¬ locked st2
          ∧ st2.d_pattern_check_len = (cont.length : Int) := by
  obtain ⟨hz1, hz2, _, _⟩ := work_item_frame st st1 c x f hframe
  refine ⟨hz1, hz2, ?_⟩
  intro clk2 cont hcont
  obtain ⟨m1, m2, m3, m4, m5⟩ := make_rearmed pattern dump_len fmt rel
  obtain ⟨a1, _, a3, _, _⟩ := work_loop_inv clk pre 0 _ st frames hrun
  obtain ⟨b1, _, b3, _, _⟩ := work_item_inv st st1 c x _ hframe
  have hsize : st1.d_pattern_check.length = (pattern.map to_bool).length := by
    rw [b1, a1, m1]
  have hpat : st1.d_pattern = (pattern.map to_bool).reverse := by
    rw [b3, a3, m2]
  have hP : 1 ≤ (pattern.map to_bool).length := by simpa using hn
  have h1 := scan_prefix clk2 st1 (pattern.map to_bool) hP hsize hpat [] cont [] 0 (by
    intro m hm
    apply not_ends_with_short
    simp only [List.nil_append, List.length_map, List.length_take]
    omega)
  rw [mstate_nil st1 hz1] at h1
  simp only [List.append_nil, List.nil_append] at h1
  refine ⟨mstate st1 (cont.map to_bool), ?_, ?_, ?_⟩
  · unfold work
    rw [h1]
    rfl
  · rw [locked_mstate st1 (pattern.map to_bool) _ hsize hpat]
    apply not_ends_with_short
    simp only [List.length_map]
    omega
  · simp only [mstate, List.length_map]
    rw [hsize, List.length_map]
    have : cont.length ≤ pattern.length := by omega
    omega

/-- Witness of `rearm_after_frame`: pattern `10`, dump length 2; after the
items `1,0,1` one more item `1` completes the frame `11`. -/
theorem rearm_after_frame_witness :
    (1 ≤ ([1, 0] : List (Fin 256)).length
      ∧ work (make [1, 0] 2 [] true) (fun _ => ⟨[], id⟩) [1, 0, 1]
          = some ({ d_output_fmt := [], d_rel_time := true, d_pattern := [false, true],
                    d_pattern_check := [false, true], d_output := [true, false],
                    d_pattern_check_len := 2, d_output_len := 1 }, [])
      ∧ work_item { d_output_fmt := [], d_rel_time := true, d_pattern := [false, true],
                    d_pattern_check := [false, true], d_output := [true, false],
                    d_pattern_check_len := 2, d_output_len := 1 } ⟨[], id⟩ 1
          = some ({ d_output_fmt := [], d_rel_time := true, d_pattern := [false, true],
                    d_pattern_check := [false, true], d_output := [true, true],
                    d_pattern_check_len := 0, d_output_len := 0 },
                  some { payload := [true, true], msg := ['1', '1'], output := [] }))
    ∧ ∀ (clk2 : Nat → Clock) (cont : List (Fin 256)),
        cont.length ≤ ([1, 0] : List (Fin 256)).length - 1 →
        ∃ st2, work { d_output_fmt := [], d_rel_time := true, d_pattern := [false, true],
                      d_pattern_check := [false, true], d_output := [true, true],
                      d_pattern_check_len := 0, d_output_len := 0 } clk2 cont = some (st2, [])
          ∧ ¬ locked st2 ∧ st2.d_pattern_check_len = (cont.length : Int) :=
  ⟨⟨by decide, by decide, by decide⟩,
    (rearm_after_frame [1, 0] 2 [] true (fun _ => ⟨[], id⟩) [1, 0, 1] []
      { d_output_fmt := [], d_rel_time := true, d_pattern := [false, true],
        d_pattern_check := [false, true], d_output := [true, false],
        d_pattern_check_len := 2, d_output_len := 1 }
      { d_output_fmt := [], d_rel_time := true, d_pattern := [false, true],
        d_pattern_check := [false, true], d_output := [true, true],
        d_pattern_check_len := 0, d_output_len := 0 }
      ⟨[], id⟩ 1 { payload := [true, true], msg := ['1', '1'], output := [] }
      (by decide) (by decide) (by decide)).2.2⟩

/-! ### Wall-clock mode of the formatter (C11) -/

theorem to_bool_normalize_byte (b : Fin 256) : to_bool (normalize_byte b) = to_bool b := by
  unfold normalize_byte to_bool
  split
  · next h => subst h; rfl
  · next h => simp [h]

theorem copy_pattern_normalize :
    ∀ (pattern : List (Fin 256)) (i : Int) (b : List Bool),
      copy_pattern (pattern.map normalize_byte) i b = copy_pattern pattern i b := by
  intro pattern
  induction pattern with
  | nil => intro i b; rfl
  | cons x rest ih =>
    intro i b
    simp only [List.map_cons, copy_pattern, to_bool_normalize_byte, ih]

theorem work_item_normalize (st : pattern_dump_impl) (c : Clock) (x : Fin 256) :
    work_item st c (normalize_byte x) = work_item st c x := by
  unfold work_item
  rw [to_bool_normalize_byte]

theorem work_loop_normalize (clk : Nat → Clock) :
    ∀ (s : List (Fin 256)) (i : Nat) (st : pattern_dump_impl),
      work_loop clk i (s.map normalize_byte) st = work_loop clk i s st := by
  intro s
  induction s with
  | nil => intro i st; rfl
  | cons x rest ih =>
    intro i st
    simp only [List.map_cons, work_loop, work_item_normalize, ih]

/-- C20: an input byte and a pattern byte count only through the test
`≠ 0`: replacing every non-zero byte of the pattern and of the input by 1
changes neither the constructed state nor anything `work` returns, the frames
included; the bytes 2 and 255 are read as bit 1. -/
theorem work_normalize_bytes (pattern : List (Fin 256)) (dump_len : Nat) (fmt : List Char)
    (rel : Bool) (clk : Nat → Clock) (input_items : List (Fin 256)) :
    make (pattern.map normalize_byte) dump_len fmt rel = make pattern dump_len fmt rel
    ∧ work (make (pattern.map normalize_byte) dump_len fmt rel) clk
          (input_items.map normalize_byte)
        = work (make pattern dump_len fmt rel) clk input_items
    ∧ (work (make (pattern.map normalize_byte) dump_len fmt rel) clk
          (input_items.map normalize_byte)).map (fun r => r.2)
        = (work (make pattern dump_len fmt rel) clk input_items).map (fun r => r.2)
    ∧ (∀ b : Fin 256, normalize_byte b = if b = 0 then 0 else 1)
    ∧ to_bool 2 = true ∧ to_bool 255 = true ∧ to_bool 1 = true ∧ to_bool 0 = false
    ∧ (work (make [2, 0, 255] 2 [] true) (fun _ => ⟨[], id⟩) [7, 0, 9, 0, 200]).map
          (fun r => r.2.map Frame.msg)
        = some ["01".toList] := by
  have hmake : make (pattern.map normalize_byte) dump_len fmt rel
      = make pattern dump_len fmt rel := by
    unfold make
    simp only [List.length_map, copy_pattern_normalize]
  have hwork : work (make (pattern.map normalize_byte) dump_len fmt rel) clk
        (input_items.map normalize_byte)
      = work (make pattern dump_len fmt rel) clk input_items := by
    unfold work
    rw [hmake, work_loop_normalize]
  refine ⟨hmake, hwork, by rw [hwork], fun b => rfl, by decide, by decide, by decide,
    by decide, by decide⟩

/-! ### One step of the loop (C13, C14) -/

theorem work_item_locked (st st1 : pattern_dump_impl) (c : Clock) (x : Fin 256)
    (fo : Option Frame) (hl : locked st) (h : work_item st c x = some (st1, fo)) :
    st1.d_pattern_check = st.d_pattern_check
    ∧ st1.d_output.length = st.d_output.length
    ∧ (fo = none → st1.d_pattern_check_len = st.d_pattern_check_len
        ∧ st1.d_output_len = st.d_output_len + 1
        ∧ st.d_output_len + 1 ≠ (st.d_output.length : Int))
    ∧ (fo ≠ none → st1.d_pattern_check_len = 0 ∧ st1.d_output_len = 0
        ∧ st.d_output_len + 1 = (st.d_output.length : Int)) := by
  unfold work_item at h
  rw [if_pos hl] at h
  unfold capture_bit at h
  cases hs : shift_bit st.d_output (to_bool x) with
  | none => simp [hs] at h
  | some r1 =>
    have hlen := shift_bit_length _ _ _ hs
    simp only [hs, Option.bind_eq_bind, Option.some_bind, format_output_eq] at h
    split at h
    · rename_i hfull
      simp only [Option.some.injEq, Prod.mk.injEq] at h
      obtain ⟨h, hf⟩ := h
      subst h
      subst hf
      refine ⟨rfl, hlen, fun hc => by simp at hc, fun _ => ⟨rfl, rfl, ?_⟩⟩
      rw [← hlen]; exact hfull
    · rename_i hnot
      simp only [Option.some.injEq, Prod.mk.injEq] at h
      obtain ⟨h, hf⟩ := h
      subst h
      subst hf
      refine ⟨rfl, hlen, fun _ => ⟨rfl, rfl, ?_⟩, fun hc => by simp at hc⟩
      rw [← hlen]; exact hnot

theorem work_item_unlocked (st st1 : pattern_dump_impl) (c : Clock) (x : Fin 256)
    (fo : Option Frame) (hl : ¬ locked st) (h : work_item st c x = some (st1, fo)) :
    st1.d_output = st.d_output ∧ st1.d_output_len = st.d_output_len ∧ fo = none
    ∧ st1.d_pattern_check.length = st.d_pattern_check.length
    ∧ st1.d_pattern_check_len
        = min (st.d_pattern_check_len + 1) (st.d_pattern_check.length : Int) := by
  unfold work_item at h
  rw [if_neg hl] at h
  unfold match_bit at h
  cases hs : shift_bit st.d_pattern_check (to_bool x) with
  | none => simp [hs] at h
  | some r1 =>
    have hlen := shift_bit_length _ _ _ hs
    simp only [hs, Option.bind_eq_bind, Option.some_bind, Option.map_some', Option.some.injEq,
      Prod.mk.injEq] at h
    obtain ⟨h, hf⟩ := h
    subst h
    subst hf
    refine ⟨rfl, rfl, rfl, hlen, ?_⟩
    simp only [hlen]

/-- C14: a step of the loop body touches one side only. From a locked state it
keeps the pattern-check register, and keeps `check_len` unless it emits a
frame, in which case `check_len` becomes 0; as long as no frame is emitted the
state stays locked whatever the bits are. From an unlocked state it keeps the
payload register and `payload_len` and emits nothing. -/
theorem work_item_frame_effect (st st1 : pattern_dump_impl) (c : Clock) (x : Fin 256)
    (fo : Option Frame) (h : work_item st c x = some (st1, fo)) :
    (locked st →
      st1.d_pattern_check = st.d_pattern_check
      ∧ (fo = none → st1.d_pattern_check_len = st.d_pattern_check_len ∧ locked st1)
      ∧ (fo ≠ none → st1.d_pattern_check_len = 0))
    ∧ (¬ locked st →
      st1.d_output = st.d_output ∧ st1.d_output_len = st.d_output_len ∧ fo = none) := by
  constructor
  · intro hl
    obtain ⟨h1, _, h3, h4⟩ := work_item_locked st st1 c x fo hl h
    obtain ⟨_, _, hp, _, _⟩ := work_item_inv st st1 c x fo h
    refine ⟨h1, ?_, fun hf => (h4 hf).1⟩
    intro hf
    refine ⟨(h3 hf).1, ?_⟩
    unfold locked at hl ⊢
    rw [(h3 hf).1, h1, hp]
    exact hl
  · intro hl
    obtain ⟨h1, h2, h3, _, _⟩ := work_item_unlocked st st1 c x fo hl h
    exact ⟨h1, h2, h3⟩

/-- Witness of `work_item_frame_effect`: pattern `10` and dump length 4; the
locked state reached after `1,0` receives the bit 1; the whole stream
`1,0,1,0,1,0` gives the single frame `1010`, the `10` inside it going unnoticed. -/
theorem work_item_frame_effect_witness :
    work_item (mstate (make [1, 0] 4 [] true) [true, false]) ⟨[], id⟩ 1
      = some (cstate (mstate (make [1, 0] 4 [] true) [true, false]) [true], none)
    ∧ locked (mstate (make [1, 0] 4 [] true) [true, false])
    ∧ (work (make [1, 0] 4 [] true) (fun _ => ⟨[], id⟩) [1, 0, 1, 0, 1, 0]).map
          (fun r => r.2.map Frame.msg) = some ["1010".toList]
    ∧ ((locked (mstate (make [1, 0] 4 [] true) [true, false]) →
        (cstate (mstate (make [1, 0] 4 [] true) [true, false]) [true]).d_pattern_check
          = (mstate (make [1, 0] 4 [] true) [true, false]).d_pattern_check
        ∧ ((none : Option Frame) = none →
            (cstate (mstate (make [1, 0] 4 [] true) [true, false]) [true]).d_pattern_check_len
              = (mstate (make [1, 0] 4 [] true) [true, false]).d_pattern_check_len
            ∧ locked (cstate (mstate (make [1, 0] 4 [] true) [true, false]) [true]))
        ∧ ((none : Option Frame) ≠ none →
            (cstate (mstate (make [1, 0] 4 [] true) [true, false]) [true]).d_pattern_check_len
              = 0))
      ∧ (¬ locked (mstate (make [1, 0] 4 [] true) [true, false]) →
        (cstate (mstate (make [1, 0] 4 [] true) [true, false]) [true]).d_output
          = (mstate (make [1, 0] 4 [] true) [true, false]).d_output
        ∧ (cstate (mstate (make [1, 0] 4 [] true) [true, false]) [true]).d_output_len
          = (mstate (make [1, 0] 4 [] true) [true, false]).d_output_len
        ∧ (none : Option Frame) = none)) :=
  ⟨by decide, by decide, by decide,
    work_item_frame_effect (mstate (make [1, 0] 4 [] true) [true, false])
      (cstate (mstate (make [1, 0] 4 [] true) [true, false]) [true]) ⟨[], id⟩ 1 none
      (by decide)⟩

theorem counters_ok_make (pattern : List (Fin 256)) (d : Nat) (fmt : List Char) (rel : Bool)
    (hd : 1 ≤ d) : counters_ok pattern.length d (make pattern d fmt rel) := by
  refine ⟨by simp [make, bitset_new], by simp [make, bitset_new], ?_, ?_, ?_, ?_, ?_⟩
  · show (0 : Int) ≤ 0; omega
  · show (0 : Int) ≤ (pattern.length : Int); omega
  · show (0 : Int) ≤ 0; omega
  · show (0 : Int) < (d : Int); omega
  · intro h
    have : (0 : Int) < 0 := h
    omega

theorem counters_ok_step (n d : Nat) (st st1 : pattern_dump_impl) (c : Clock) (x : Fin 256)
    (fo : Option Frame) (hinv : counters_ok n d st) (h : work_item st c x = some (st1, fo)) :
    counters_ok n d st1 := by
  obtain ⟨i1, i2, i3, i4, i5, i6, i7⟩ := hinv
  obtain ⟨a1, a2, a3, _, _⟩ := work_item_inv st st1 c x fo h
  by_cases hl : locked st
  · obtain ⟨b1, _, b3, b4⟩ := work_item_locked st st1 c x fo hl h
    cases hfo : fo with
    | none =>
      obtain ⟨c1, c2, c3⟩ := b3 hfo
      refine ⟨a1.trans i1, a2.trans i2, by omega, by omega, by omega, by omega, ?_⟩
      intro _
      unfold locked at hl ⊢
      rw [c1, b1, a3]
      exact hl
    | some f =>
      obtain ⟨c1, c2, _⟩ := b4 (by rw [hfo]; simp)
      refine ⟨a1.trans i1, a2.trans i2, by omega, by omega, by omega, by omega, ?_⟩
      intro hpos
      omega
  · obtain ⟨b1, b2, _, b4, b5⟩ := work_item_unlocked st st1 c x fo hl h
    have hz : st.d_output_len = 0 := by
      by_contra hne
      exact hl (i7 (by omega))
    refine ⟨a1.trans i1, a2.trans i2, by omega, by omega, by omega, by omega, ?_⟩
    intro hpos
    omega

theorem counters_ok_reachable (n d : Nat) (init st : pattern_dump_impl)
    (hinit : counters_ok n d init) (h : Reachable init st) : counters_ok n d st := by
  induction h with
  | start => exact hinit
  | step st0 st1 c x fo _ hstep ih => exact counters_ok_step n d st0 st1 c x fo ih hstep

theorem work_loop_reachable (clk : Nat → Clock) (init : pattern_dump_impl) :
    ∀ (s : List (Fin 256)) (i : Nat) (st st1 : pattern_dump_impl) (frames : List Frame),
      Reachable init st → work_loop clk i s st = some (st1, frames) → Reachable init st1 := by
  intro s
  induction s with
  | nil =>
    intro i st st1 frames hr h
    simp only [work_loop, Option.some.injEq, Prod.mk.injEq] at h
    obtain ⟨h, _⟩ := h
    subst h
    exact hr
  | cons x rest ih =>
    intro i st st1 frames hr h
    cases hw : work_item st (clk i) x with
    | none => simp [work_loop, hw] at h
    | some r =>
      obtain ⟨st2, fo⟩ := r
      cases hrest : work_loop clk (i + 1) rest st2 with
      | none => simp [work_loop, hw, hrest] at h
      | some r2 =>
        obtain ⟨st3, fs⟩ := r2
        simp only [work_loop, hw, hrest, Option.bind_eq_bind, Option.some_bind,
          Option.some.injEq, Prod.mk.injEq] at h
        obtain ⟨h, _⟩ := h
        subst h
        exact ih (i + 1) st2 st3 fs (Reachable.step st st2 (clk i) x fo hr hw) hrest

/-- C13: for a pattern of length `n` (`n ≥ 1` is not even needed) and a dump
length `d ≥ 1`, every state reachable from the constructed state by steps of the loop body, and so
every state `work` returns, keeps the register sizes `n` and `d` and has
`0 ≤ check_len ≤ n`, `0 ≤ payload_len < d`, and `payload_len > 0` only when
the matcher is locked. -/
theorem reachable_counters (pattern : List (Fin 256)) (dump_len : Nat) (fmt : List Char)
    (rel : Bool) (hd : 1 ≤ dump_len) :
    (∀ st, Reachable (make pattern dump_len fmt rel) st →
      st.d_pattern_check.length = pattern.length ∧ st.d_output.length = dump_len
      ∧ 0 ≤ st.d_pattern_check_len ∧ st.d_pattern_check_len ≤ (pattern.length : Int)
      ∧ 0 ≤ st.d_output_len ∧ st.d_output_len < (dump_len : Int)
      ∧ (0 < st.d_output_len → locked st))
    ∧ (∀ (clk : Nat → Clock) (input_items : List (Fin 256)) st frames,
        work (make pattern dump_len fmt rel) clk input_items = some (st, frames) →
        Reachable (make pattern dump_len fmt rel) st)
    ∧ (∀ (st st1 st2 : pattern_dump_impl) (clk : Nat → Clock) (items : List (Fin 256)) frames,
        Reachable st st1 → work st1 clk items = some (st2, frames) → Reachable st st2) := by
  refine ⟨?_, ?_, ?_⟩
  · intro st h
    exact counters_ok_reachable pattern.length dump_len _ st
      (counters_ok_make pattern dump_len fmt rel hd) h
  · intro clk input_items st frames h
    exact work_loop_reachable clk _ input_items 0 _ st frames Reachable.start h
  · intro st st1 st2 clk items frames hr h
    exact work_loop_reachable clk st items 0 st1 st2 frames hr h

/-- Witness of `reachable_counters`: pattern `10`, dump length 3; after the
items `1,0,1` the state is locked with `check_len = 2` and `payload_len = 1`. -/
theorem reachable_counters_witness :
    (1 ≤ ([1, 0] : List (Fin 256)).length ∧ 1 ≤ 3)
    ∧ (work (make [1, 0] 3 [] true) (fun _ => ⟨[], id⟩) [1, 0, 1]).map
          (fun r => (r.1.d_pattern_check_len, r.1.d_output_len)) = some (2, 1)
    ∧ ∀ st, Reachable (make [1, 0] 3 [] true) st →
        st.d_pattern_check.length = ([1, 0] : List (Fin 256)).length ∧ st.d_output.length = 3
        ∧ 0 ≤ st.d_pattern_check_len
        ∧ st.d_pattern_check_len ≤ ((([1, 0] : List (Fin 256)).length : Nat) : Int)
        ∧ 0 ≤ st.d_output_len ∧ st.d_output_len < ((3 : Nat) : Int)
        ∧ (0 < st.d_output_len → locked st) :=
  ⟨⟨by decide, by decide⟩, by decide,
    (reachable_counters [1, 0] 3 [] true (by decide)).1⟩

/-! ### Totality of the steps: registers and encoders -/

theorem work_item_total (st : pattern_dump_impl) (c : Clock) (x : Fin 256)
    (h1 : 1 ≤ st.d_pattern_check.length) (h2 : 1 ≤ st.d_output.length) :
    ∃ st1 fo, work_item st c x = some (st1, fo) := by
  unfold work_item
  by_cases hl : locked st
  · rw [if_pos hl]
    unfold capture_bit
    rw [shift_bit_eq _ _ h2]
    simp only [Option.bind_eq_bind, Option.some_bind, format_output_eq]
    split
    · exact ⟨_, _, rfl⟩
    · exact ⟨_, _, rfl⟩
  · rw [if_neg hl]
    unfold match_bit
    rw [shift_bit_eq _ _ h1]
    exact ⟨_, _, rfl⟩

theorem work_loop_total (clk : Nat → Clock) :
    ∀ (s : List (Fin 256)) (i : Nat) (st : pattern_dump_impl),
      1 ≤ st.d_pattern_check.length → 1 ≤ st.d_output.length →
      ∃ st1 frames, work_loop clk i s st = some (st1, frames) := by
  intro s
  induction s with
  | nil => intro i st _ _; exact ⟨st, [], rfl⟩
  | cons x rest ih =>
    intro i st h1 h2
    obtain ⟨st1, fo, hw⟩ := work_item_total st (clk i) x h1 h2
    obtain ⟨a1, a2, _, _, _⟩ := work_item_inv st st1 (clk i) x fo hw
    obtain ⟨st2, fs, hr⟩ := ih (i + 1) st1 (by omega) (by omega)
    exact ⟨st2, fo.toList ++ fs, by simp [work_loop, hw, hr]⟩

theorem hex_group_ok (reg : List Bool) (i : Nat) (hi : i < (get_output_bit_string reg).length) :
    ∃ g v, substr (get_output_bit_string reg) i 8 = some g
      ∧ 1 ≤ g.length ∧ g.length ≤ 8 ∧ (∀ c ∈ g, c = '0' ∨ c = '1')
      ∧ bitset8_to_ulong g = some v ∧ v < 256 := by
  have hlen : (((get_output_bit_string reg).drop i).take 8).length ≤ 8 := by
    rw [List.length_take]; omega
  have hpos : 1 ≤ (((get_output_bit_string reg).drop i).take 8).length := by
    rw [List.length_take, List.length_drop]; omega
  have hch : ∀ c ∈ ((get_output_bit_string reg).drop i).take 8, c = '0' ∨ c = '1' :=
    fun c hc => bitset_to_string_chars reg c (List.mem_of_mem_drop (List.mem_of_mem_take hc))
  refine ⟨_, _, substr_of_le _ i 8 (Nat.le_of_lt hi), hpos, hlen, hch,
    bitset8_to_ulong_eq _ hch hlen, ?_⟩
  have h1 := binary_value_lt (((get_output_bit_string reg).drop i).take 8)
  have h2 : 2 ^ (((get_output_bit_string reg).drop i).take 8).length ≤ 2 ^ 8 :=
    Nat.pow_le_pow_right (by decide) hlen
  omega

/-! ### Stale payload bits (C15) -/

theorem groups_length (k : Nat) (s : List Char) : (groups k s).length = (s.length + k - 1) / k := by
  simp [groups]

theorem hex_flatMap_length (l : List (List Char)) :
    (l.flatMap (fun g => two_hex_digits (binary_value g))).length = 2 * l.length := by
  induction l with
  | nil => rfl
  | cons g rest ih =>
    rw [List.flatMap_cons, List.length_append, ih, List.length_cons]
    simp only [two_hex_digits, List.length_cons, List.length_nil]
    omega

theorem hex_digit_mem (v : Nat) (hv : v < 16) : hex_digit v ∈ "0123456789ABCDEF".toList := by
  interval_cases v <;> decide

theorem get_output_bit_string_length (d_output : List Bool) :
    (get_output_bit_string d_output).length = d_output.length := by
  simp [get_output_bit_string, bitset_to_string]

/-- C17: for a payload register of `d` bits the bit string has `d` characters,
each `0` or `1`; the hex string has `2 * ⌈d / 8⌉` characters, each one of
`0123456789ABCDEF`; the Manchester string has `⌈d / 2⌉` and the PWM string
`⌈d / 3⌉` characters, each `0`, `1` or `x`. -/
theorem encodings_length (d_output : List Bool) :
    (get_output_bit_string d_output).length = d_output.length
    ∧ (∀ c ∈ get_output_bit_string d_output, c = '0' ∨ c = '1')
    ∧ (∃ hex, get_output_hex_string d_output = some hex
        ∧ hex.length = 2 * ((d_output.length + 7) / 8)
        ∧ ∀ c ∈ hex, c ∈ "0123456789ABCDEF".toList)
    ∧ (∃ man, get_output_man_string d_output = some man
        ∧ man.length = (d_output.length + 1) / 2
        ∧ ∀ c ∈ man, c = '0' ∨ c = '1' ∨ c = 'x')
    ∧ (∃ pwm, get_output_pwm_string d_output = some pwm
        ∧ pwm.length = (d_output.length + 2) / 3
        ∧ ∀ c ∈ pwm, c = '0' ∨ c = '1' ∨ c = 'x') := by
  have hlen := get_output_bit_string_length d_output
  refine ⟨hlen, bitset_to_string_chars d_output, ?_, ?_, ?_⟩
  · refine ⟨_, get_output_hex_string_eq d_output, ?_, ?_⟩
    · unfold hex_of_groups
      rw [hex_flatMap_length, groups_length, hlen]
      rfl
    · intro c hc
      unfold hex_of_groups at hc
      rw [List.mem_flatMap] at hc
      obtain ⟨g, hg, hcg⟩ := hc
      have hl := mem_groups_length 8 (by decide) _ g hg
      have hv : binary_value g < 256 := by
        have h1 := binary_value_lt g
        have h2 : 2 ^ g.length ≤ 2 ^ 8 := Nat.pow_le_pow_right (by decide) hl.2
        omega
      simp only [two_hex_digits, List.mem_cons, List.mem_singleton, List.not_mem_nil,
        or_false] at hcg
      rcases hcg with h | h
      · rw [h]; exact hex_digit_mem _ (by omega)
      · rw [h]; exact hex_digit_mem _ (by omega)
  · refine ⟨_, get_output_man_string_eq d_output, ?_, ?_⟩
    · rw [List.length_map, groups_length, hlen]
      rfl
    · intro c hc
      rw [List.mem_map] at hc
      obtain ⟨g, _, rfl⟩ := hc
      unfold man_symbol
      split_ifs <;> simp
  · refine ⟨_, get_output_pwm_string_eq d_output, ?_, ?_⟩
    · rw [List.length_map, groups_length, hlen]
      rfl
    · intro c hc
      rw [List.mem_map] at hc
      obtain ⟨g, _, rfl⟩ := hc
      unfold pwm_symbol
      split_ifs <;> simp

/-! ### The hex rendering keeps the payload (C18) -/

theorem binary_fold_inj :
    ∀ (g1 g2 : List Char) (a1 a2 : Nat), g1.length = g2.length →
      (∀ c ∈ g1, c = '0' ∨ c = '1') → (∀ c ∈ g2, c = '0' ∨ c = '1') →
      g1.foldl (fun acc c => 2 * acc + (if c = '1' then 1 else 0)) a1
        = g2.foldl (fun acc c => 2 * acc + (if c = '1' then 1 else 0)) a2 →
      a1 = a2 ∧ g1 = g2 := by
  intro g1
  induction g1 with
  | nil =>
    intro g2 a1 a2 hlen _ _ h
    have : g2 = [] := List.length_eq_zero.mp hlen.symm
    subst this
    exact ⟨h, rfl⟩
  | cons c1 r1 ih =>
    intro g2 a1 a2 hlen h1 h2 h
    cases g2 with
    | nil => simp at hlen
    | cons c2 r2 =>
      simp only [List.length_cons, Nat.add_right_cancel_iff] at hlen
      simp only [List.foldl_cons] at h
      obtain ⟨ha, hr⟩ := ih r2 _ _ hlen (fun c hc => h1 c (List.mem_cons_of_mem _ hc))
        (fun c hc => h2 c (List.mem_cons_of_mem _ hc)) h
      have hc1 := h1 c1 (List.mem_cons_self _ _)
      have hc2 := h2 c2 (List.mem_cons_self _ _)
      rcases hc1 with e1 | e1 <;> rcases hc2 with e2 | e2 <;> subst e1 <;> subst e2 <;>
        simp at ha <;> first | (exfalso; omega) | exact ⟨by omega, by rw [hr]⟩

theorem binary_value_inj (g1 g2 : List Char) (hlen : g1.length = g2.length)
    (h1 : ∀ c ∈ g1, c = '0' ∨ c = '1') (h2 : ∀ c ∈ g2, c = '0' ∨ c = '1')
    (h : binary_value g1 = binary_value g2) : g1 = g2 :=
  (binary_fold_inj g1 g2 0 0 hlen h1 h2 h).2

theorem hex_digit_inj (a b : Nat) (ha : a < 16) (hb : b < 16) (h : hex_digit a = hex_digit b) :
    a = b := by
  interval_cases a <;> interval_cases b <;> first | rfl | (exact absurd h (by decide))

theorem two_hex_digits_inj (v w : Nat) (hv : v < 256) (hw : w < 256)
    (h : two_hex_digits v = two_hex_digits w) : v = w := by
  simp only [two_hex_digits, List.cons.injEq, and_true] at h
  have h1 := hex_digit_inj _ _ (by omega) (by omega) h.1
  have h2 := hex_digit_inj _ _ (Nat.mod_lt _ (by decide)) (Nat.mod_lt _ (by decide)) h.2
  omega

theorem hex_of_groups_inj :
    ∀ (n : Nat) (s1 s2 : List Char), s1.length ≤ n → s1.length = s2.length →
      (∀ c ∈ s1, c = '0' ∨ c = '1') → (∀ c ∈ s2, c = '0' ∨ c = '1') →
      hex_of_groups s1 = hex_of_groups s2 → s1 = s2 := by
  intro n
  induction n with
  | zero =>
    intro s1 s2 hn hlen _ _ _
    have e1 : s1 = [] := List.length_eq_zero.mp (by omega)
    have e2 : s2 = [] := List.length_eq_zero.mp (by omega)
    rw [e1, e2]
  | succ n ih =>
    intro s1 s2 hn hlen h1 h2 h
    by_cases he : s1 = []
    · have e2 : s2 = [] := List.length_eq_zero.mp (by rw [← hlen, he]; rfl)
      rw [he, e2]
    · have he2 : s2 ≠ [] := by
        intro e
        rw [e] at hlen
        exact he (List.length_eq_zero.mp hlen)
      have hpos : 0 < s1.length := List.length_pos.mpr he
      unfold hex_of_groups at h
      rw [groups_cons 8 (by decide) s1 he, groups_cons 8 (by decide) s2 he2,
        List.flatMap_cons, List.flatMap_cons] at h
      have hsplit := List.append_inj h (by simp [two_hex_digits])
      have ht1 : ∀ c ∈ s1.take 8, c = '0' ∨ c = '1' := fun c hc => h1 c (List.mem_of_mem_take hc)
      have ht2 : ∀ c ∈ s2.take 8, c = '0' ∨ c = '1' := fun c hc => h2 c (List.mem_of_mem_take hc)
      have hl1 : (s1.take 8).length ≤ 8 := by rw [List.length_take]; omega
      have hl2 : (s2.take 8).length ≤ 8 := by rw [List.length_take]; omega
      have hb1 : binary_value (s1.take 8) < 256 := by
        have a := binary_value_lt (s1.take 8)
        have b : 2 ^ (s1.take 8).length ≤ 2 ^ 8 := Nat.pow_le_pow_right (by decide) hl1
        omega
      have hb2 : binary_value (s2.take 8) < 256 := by
        have a := binary_value_lt (s2.take 8)
        have b : 2 ^ (s2.take 8).length ≤ 2 ^ 8 := Nat.pow_le_pow_right (by decide) hl2
        omega
      have hv := two_hex_digits_inj _ _ hb1 hb2 hsplit.1
      have htake : s1.take 8 = s2.take 8 :=
        binary_value_inj _ _ (by rw [List.length_take, List.length_take, hlen]) ht1 ht2 hv
      have hdrop : s1.drop 8 = s2.drop 8 :=
        ih (s1.drop 8) (s2.drop 8) (by rw [List.length_drop]; omega)
          (by rw [List.length_drop, List.length_drop, hlen])
          (fun c hc => h1 c (List.mem_of_mem_drop hc))
          (fun c hc => h2 c (List.mem_of_mem_drop hc)) hsplit.2
      rw [← List.take_append_drop 8 s1, ← List.take_append_drop 8 s2, htake, hdrop]

theorem bitset_to_string_inj (p q : List Bool) (h : bitset_to_string p = bitset_to_string q) :
    p = q := by
  unfold bitset_to_string at h
  have hinj : Function.Injective (fun x : Bool => if x then '1' else '0') := by
    intro a b hab
    cases a <;> cases b <;> simp at hab <;> rfl
  exact List.reverse_injective (List.map_injective_iff.mpr hinj h)

/-- C18: for payload registers of one and the same length, equal hex strings
come from equal payloads only; without the length the hex string does not
determine the payload: `1` and `00000001` both render as `01`. -/
theorem hex_string_injective (p q : List Bool) (hlen : p.length = q.length)
    (h : get_output_hex_string p = get_output_hex_string q) :
    p = q
    ∧ get_output_hex_string (payload_of "1") = some "01".toList
    ∧ get_output_hex_string (payload_of "00000001") = some "01".toList
    ∧ payload_of "1" ≠ payload_of "00000001" := by
  refine ⟨?_, by decide, by decide, by decide⟩
  rw [get_output_hex_string_eq, get_output_hex_string_eq, Option.some.injEq] at h
  have hs := hex_of_groups_inj (get_output_bit_string p).length (get_output_bit_string p)
    (get_output_bit_string q) (Nat.le_refl _)
    (by rw [get_output_bit_string_length, get_output_bit_string_length, hlen])
    (bitset_to_string_chars p) (bitset_to_string_chars q) h
  exact bitset_to_string_inj p q hs

/-- Witness of `hex_string_injective`: the register of `0100001101010110`
compared with itself. -/
theorem hex_string_injective_witness :
    ((payload_of "0100001101010110").length = (payload_of "0100001101010110").length
      ∧ get_output_hex_string (payload_of "0100001101010110")
          = get_output_hex_string (payload_of "0100001101010110"))
    ∧ get_output_hex_string (payload_of "0100001101010110")
        ≠ get_output_hex_string (payload_of "0100001101010111")
    ∧ (payload_of "0100001101010110" = payload_of "0100001101010110"
      ∧ get_output_hex_string (payload_of "1") = some "01".toList
      ∧ get_output_hex_string (payload_of "00000001") = some "01".toList
      ∧ payload_of "1" ≠ payload_of "00000001") :=
  ⟨⟨rfl, rfl⟩, by decide,
    hex_string_injective (payload_of "0100001101010110") (payload_of "0100001101010110") rfl rfl⟩

/-! ### Decoders against their line codes (C19) -/

theorem bit_string_append (a b : List Bool) : bit_string (a ++ b) = bit_string a ++ bit_string b := by
  simp [bit_string]

theorem man_groups_code (s : List Bool) :
    (groups 2 (bit_string (manchester_code s))).map man_symbol = bit_string s := by
  induction s with
  | nil => simp [manchester_code, bit_string, groups_nil]
  | cons b rest ih =>
    have hcode : manchester_code (b :: rest)
        = (if b then [true, false] else [false, true]) ++ manchester_code rest := by
      simp [manchester_code]
    rw [hcode, bit_string_append]
    cases b
    · rw [groups_cons 2 (by decide) _ (by simp [bit_string])]
      simp only [Bool.false_eq_true, if_false, bit_string, List.map_cons, List.map_nil,
        List.cons_append, List.nil_append, List.take_succ_cons, List.take_zero,
        List.drop_succ_cons, List.drop_zero, if_true] at ih ⊢
      rw [ih]
      simp [man_symbol]
    · rw [groups_cons 2 (by decide) _ (by simp [bit_string])]
      simp only [if_true, bit_string, List.map_cons, List.map_nil,
        List.cons_append, List.nil_append, List.take_succ_cons, List.take_zero,
        List.drop_succ_cons, List.drop_zero, Bool.false_eq_true, if_false] at ih ⊢
      rw [ih]
      simp [man_symbol]

theorem pwm_groups_code (s : List Bool) :
    (groups 3 (bit_string (pwm_code s))).map pwm_symbol = bit_string s := by
  induction s with
  | nil => simp [pwm_code, bit_string, groups_nil]
  | cons b rest ih =>
    have hcode : pwm_code (b :: rest)
        = (if b then [true, false, false] else [true, true, false]) ++ pwm_code rest := by
      simp [pwm_code]
    rw [hcode, bit_string_append]
    cases b
    · rw [groups_cons 3 (by decide) _ (by simp [bit_string])]
      simp only [Bool.false_eq_true, if_false, bit_string, List.map_cons, List.map_nil,
        List.cons_append, List.nil_append, List.take_succ_cons, List.take_zero,
        List.drop_succ_cons, List.drop_zero, if_true] at ih ⊢
      rw [ih]
      simp [pwm_symbol]
    · rw [groups_cons 3 (by decide) _ (by simp [bit_string])]
      simp only [if_true, bit_string, List.map_cons, List.map_nil,
        List.cons_append, List.nil_append, List.take_succ_cons, List.take_zero,
        List.drop_succ_cons, List.drop_zero, Bool.false_eq_true, if_false] at ih ⊢
      rw [ih]
      simp [pwm_symbol]

theorem bit_string_no_x (s : List Bool) : 'x' ∉ bit_string s := by
  intro h
  unfold bit_string at h
  rw [List.mem_map] at h
  obtain ⟨b, _, hb⟩ := h
  cases b <;> simp at hb

/-- C19: decoding undoes the line codes. For every bit sequence `s`, the
Manchester string of the payload that spells `s` with `01` for 0 and `10` for
1 is the text of `s`, and the PWM string of the payload that spells `s` with
`100` for 1 and `110` for 0 is the text of `s`; neither contains `x`. -/
theorem decoders_left_inverse (s : List Bool) :
    get_output_bit_string (manchester_code s).reverse = bit_string (manchester_code s)
    ∧ get_output_man_string (manchester_code s).reverse = some (bit_string s)
    ∧ get_output_bit_string (pwm_code s).reverse = bit_string (pwm_code s)
    ∧ get_output_pwm_string (pwm_code s).reverse = some (bit_string s)
    ∧ 'x' ∉ bit_string s
    ∧ bit_string (manchester_code [false, true]) = "0110".toList
    ∧ bit_string (pwm_code [true, false]) = "100110".toList
    ∧ get_output_man_string (payload_of "0110") = some "01".toList
    ∧ get_output_pwm_string (payload_of "100110") = some "10".toList := by
  refine ⟨bitset_to_string_reverse _, ?_, bitset_to_string_reverse _, ?_, bit_string_no_x s,
    by decide, by decide, by decide, by decide⟩
  · rw [get_output_man_string_eq, bitset_to_string_reverse, man_groups_code]
  · rw [get_output_pwm_string_eq, bitset_to_string_reverse, pwm_groups_code]

/-! ### Sequential passes against one simultaneous substitution (C16) -/

theorem scan_cons_ne (t X Y : List Char) (c : Char) (hc : c ≠ '%') :
    replace_all_scan ('%' :: t) X 0 (c :: Y) = c :: replace_all_scan ('%' :: t) X 0 Y := by
  have : ('%' == c) = false := by simpa using fun e => hc e.symm
  simp [replace_all_scan, List.isPrefixOf, this]

theorem scan_append_free (t X : List Char) :
    ∀ (w Y : List Char), '%' ∉ w →
      replace_all_scan ('%' :: t) X 0 (w ++ Y) = w ++ replace_all_scan ('%' :: t) X 0 Y := by
  intro w
  induction w with
  | nil => intro Y _; rfl
  | cons c w ih =>
    intro Y h
    have hc : c ≠ '%' := fun e => h (by simp [e])
    have hw : '%' ∉ w := fun e => h (List.mem_cons_of_mem _ e)
    rw [List.cons_append, scan_cons_ne t X _ c hc, ih Y hw, List.cons_append]

theorem scan_token (t X Y : List Char) :
    replace_all_scan ('%' :: t) X 0 ('%' :: t ++ Y) = X ++ replace_all_scan ('%' :: t) X 0 Y := by
  have hp : ('%' :: t).isPrefixOf ('%' :: (t ++ Y)) = true :=
    List.isPrefixOf_iff_prefix.mpr ⟨Y, rfl⟩
  rw [List.cons_append]
  simp only [replace_all_scan, hp, if_true, List.length_cons, Nat.add_sub_cancel]
  rw [replace_all_scan_skip, List.drop_left]

theorem scan_percent_miss (t X Y : List Char) (h : t.isPrefixOf Y = false) :
    replace_all_scan ('%' :: t) X 0 ('%' :: Y) = '%' :: replace_all_scan ('%' :: t) X 0 Y := by
  simp [replace_all_scan, List.isPrefixOf, h]

theorem scan_prefix_reflect (t tl : List Char) (x : Char) :
    ∀ (w Y : List Char), '%' ∉ w → x ∉ w →
      w.isPrefixOf (replace_all_scan ('%' :: t) (x :: tl) 0 Y) = true → w.isPrefixOf Y = true := by
  intro w
  induction w with
  | nil => intro Y _ _ _; simp [List.isPrefixOf]
  | cons a w ih =>
    intro Y hp hx h
    have ha : a ≠ '%' := fun e => hp (by simp [e])
    have hax : a ≠ x := fun e => hx (by simp [e])
    have hw : '%' ∉ w := fun e => hp (List.mem_cons_of_mem _ e)
    have hwx : x ∉ w := fun e => hx (List.mem_cons_of_mem _ e)
    cases Y with
    | nil => simp [replace_all_scan, List.isPrefixOf] at h
    | cons c Y =>
      by_cases hc : c = '%'
      · subst hc
        by_cases hm : t.isPrefixOf Y = true
        · simp [replace_all_scan, List.isPrefixOf, hm, hax] at h
        · simp [replace_all_scan, List.isPrefixOf, hm, ha] at h
      · rw [scan_cons_ne t _ Y c hc] at h
        simp only [List.isPrefixOf, Bool.and_eq_true, beq_iff_eq] at h ⊢
        exact ⟨h.1, ih Y hw hwx h.2⟩

theorem scan_miss_kept (t tl : List Char) (x : Char) (w Y : List Char) (hp : '%' ∉ w)
    (hx : x ∉ w) (h : w.isPrefixOf Y = false) :
    w.isPrefixOf (replace_all_scan ('%' :: t) (x :: tl) 0 Y) = false := by
  cases hq : w.isPrefixOf (replace_all_scan ('%' :: t) (x :: tl) 0 Y) with
  | false => rfl
  | true =>
    have := scan_prefix_reflect t tl x w Y hp hx hq
    rw [h] at this
    exact absurd this (by decide)

theorem scan_other_token (t t2 X Y : List Char) (hfree : '%' ∉ t2)
    (hinc : t.isPrefixOf (t2 ++ Y) = false) :
    replace_all_scan ('%' :: t) X 0 ('%' :: t2 ++ Y)
      = '%' :: t2 ++ replace_all_scan ('%' :: t) X 0 Y := by
  rw [List.cons_append, scan_percent_miss t X _ hinc, scan_append_free t X t2 Y hfree,
    List.cons_append]

theorem tok_s : "%s".toList = '%' :: "s".toList := rfl
theorem tok_bits : "%[bits]".toList = '%' :: "[bits]".toList := rfl
theorem tok_hex : "%[hex]".toList = '%' :: "[hex]".toList := rfl
theorem tok_man : "%[man-bits]".toList = '%' :: "[man-bits]".toList := rfl
theorem tok_pwm : "%[pwm-bits]".toList = '%' :: "[pwm-bits]".toList := rfl

theorem five_passes_nil (x1 x2 x3 x4 x5 : List Char) : five_passes x1 x2 x3 x4 x5 [] = [] := by
  simp [five_passes, replace_all_scan]

theorem five_passes_cons_ne (x1 x2 x3 x4 x5 Y : List Char) (c : Char) (hc : c ≠ '%') :
    five_passes x1 x2 x3 x4 x5 (c :: Y) = c :: five_passes x1 x2 x3 x4 x5 Y := by
  unfold five_passes
  rw [tok_s, tok_bits, tok_hex, tok_man, tok_pwm]
  rw [scan_cons_ne _ _ _ c hc, scan_cons_ne _ _ _ c hc, scan_cons_ne _ _ _ c hc,
    scan_cons_ne _ _ _ c hc, scan_cons_ne _ _ _ c hc]

theorem five_passes_s (x1 x2 x3 x4 x5 Y : List Char) (h1 : '%' ∉ x1) :
    five_passes x1 x2 x3 x4 x5 ("%s".toList ++ Y) = x1 ++ five_passes x1 x2 x3 x4 x5 Y := by
  unfold five_passes
  rw [tok_s, tok_bits, tok_hex, tok_man, tok_pwm]
  rw [scan_token, scan_append_free _ _ x1 _ h1, scan_append_free _ _ x1 _ h1,
    scan_append_free _ _ x1 _ h1, scan_append_free _ _ x1 _ h1]

theorem five_passes_bits (x1 x2 x3 x4 x5 Y : List Char) (h2 : '%' ∉ x2) :
    five_passes x1 x2 x3 x4 x5 ("%[bits]".toList ++ Y)
      = x2 ++ five_passes x1 x2 x3 x4 x5 Y := by
  unfold five_passes
  rw [tok_s, tok_bits, tok_hex, tok_man, tok_pwm]
  rw [scan_other_token "s".toList "[bits]".toList x1 Y (by decide) (by rfl),
    scan_token, scan_append_free _ _ x2 _ h2, scan_append_free _ _ x2 _ h2,
    scan_append_free _ _ x2 _ h2]

theorem five_passes_hex (x1 x2 x3 x4 x5 Y : List Char) (h3 : '%' ∉ x3) :
    five_passes x1 x2 x3 x4 x5 ("%[hex]".toList ++ Y)
      = x3 ++ five_passes x1 x2 x3 x4 x5 Y := by
  unfold five_passes
  rw [tok_s, tok_bits, tok_hex, tok_man, tok_pwm]
  rw [scan_other_token "s".toList "[hex]".toList x1 Y (by decide) (by rfl),
    scan_other_token "[bits]".toList "[hex]".toList x2 _ (by decide) (by rfl),
    scan_token, scan_append_free _ _ x3 _ h3, scan_append_free _ _ x3 _ h3]

theorem five_passes_man (x1 x2 x3 x4 x5 Y : List Char) (h4 : '%' ∉ x4) :
    five_passes x1 x2 x3 x4 x5 ("%[man-bits]".toList ++ Y)
      = x4 ++ five_passes x1 x2 x3 x4 x5 Y := by
  unfold five_passes
  rw [tok_s, tok_bits, tok_hex, tok_man, tok_pwm]
  rw [scan_other_token "s".toList "[man-bits]".toList x1 Y (by decide) (by rfl),
    scan_other_token "[bits]".toList "[man-bits]".toList x2 _ (by decide) (by rfl),
    scan_other_token "[hex]".toList "[man-bits]".toList x3 _ (by decide) (by rfl),
    scan_token, scan_append_free _ _ x4 _ h4]

theorem five_passes_pwm (x1 x2 x3 x4 x5 Y : List Char) :
    five_passes x1 x2 x3 x4 x5 ("%[pwm-bits]".toList ++ Y)
      = x5 ++ five_passes x1 x2 x3 x4 x5 Y := by
  unfold five_passes
  rw [tok_s, tok_bits, tok_hex, tok_man, tok_pwm]
  rw [scan_other_token "s".toList "[pwm-bits]".toList x1 Y (by decide) (by rfl),
    scan_other_token "[bits]".toList "[pwm-bits]".toList x2 _ (by decide) (by rfl),
    scan_other_token "[hex]".toList "[pwm-bits]".toList x3 _ (by decide) (by rfl),
    scan_other_token "[man-bits]".toList "[pwm-bits]".toList x4 _ (by decide) (by rfl),
    scan_token]

theorem token_chars_bits : ∀ c ∈ "[bits]".toList, c ∈ token_chars := by decide
theorem token_chars_hex : ∀ c ∈ "[hex]".toList, c ∈ token_chars := by decide
theorem token_chars_man : ∀ c ∈ "[man-bits]".toList, c ∈ token_chars := by decide
theorem token_chars_pwm : ∀ c ∈ "[pwm-bits]".toList, c ∈ token_chars := by decide

theorem five_passes_percent (a1 a2 a3 a4 : Char) (l1 l2 l3 l4 x5 Y : List Char)
    (h1 : a1 ∉ token_chars) (h2 : a2 ∉ token_chars) (h3 : a3 ∉ token_chars)
    (h4 : a4 ∉ "[pwm-bits]".toList)
    (ms : "s".toList.isPrefixOf Y = false) (mb : "[bits]".toList.isPrefixOf Y = false)
    (mh : "[hex]".toList.isPrefixOf Y = false) (mm : "[man-bits]".toList.isPrefixOf Y = false)
    (mp : "[pwm-bits]".toList.isPrefixOf Y = false) :
    five_passes (a1 :: l1) (a2 :: l2) (a3 :: l3) (a4 :: l4) x5 ('%' :: Y)
      = '%' :: five_passes (a1 :: l1) (a2 :: l2) (a3 :: l3) (a4 :: l4) x5 Y := by
  have b1 : "[bits]".toList.isPrefixOf (replace_all_scan ('%' :: "s".toList) (a1 :: l1) 0 Y)
      = false :=
    scan_miss_kept _ _ _ _ _ (by decide) (fun h => h1 (token_chars_bits _ h)) mb
  have c1 : "[hex]".toList.isPrefixOf (replace_all_scan ('%' :: "s".toList) (a1 :: l1) 0 Y)
      = false :=
    scan_miss_kept _ _ _ _ _ (by decide) (fun h => h1 (token_chars_hex _ h)) mh
  have c2 := scan_miss_kept "[bits]".toList l2 a2 "[hex]".toList _ (by decide)
    (fun h => h2 (token_chars_hex _ h)) c1
  have d1 : "[man-bits]".toList.isPrefixOf
      (replace_all_scan ('%' :: "s".toList) (a1 :: l1) 0 Y) = false :=
    scan_miss_kept _ _ _ _ _ (by decide) (fun h => h1 (token_chars_man _ h)) mm
  have d2 := scan_miss_kept "[bits]".toList l2 a2 "[man-bits]".toList _ (by decide)
    (fun h => h2 (token_chars_man _ h)) d1
  have d3 := scan_miss_kept "[hex]".toList l3 a3 "[man-bits]".toList _ (by decide)
    (fun h => h3 (token_chars_man _ h)) d2
  have e1 : "[pwm-bits]".toList.isPrefixOf
      (replace_all_scan ('%' :: "s".toList) (a1 :: l1) 0 Y) = false :=
    scan_miss_kept _ _ _ _ _ (by decide) (fun h => h1 (token_chars_pwm _ h)) mp
  have e2 := scan_miss_kept "[bits]".toList l2 a2 "[pwm-bits]".toList _ (by decide)
    (fun h => h2 (token_chars_pwm _ h)) e1
  have e3 := scan_miss_kept "[hex]".toList l3 a3 "[pwm-bits]".toList _ (by decide)
    (fun h => h3 (token_chars_pwm _ h)) e2
  have e4 := scan_miss_kept "[man-bits]".toList l4 a4 "[pwm-bits]".toList _ (by decide) h4 e3
  unfold five_passes
  rw [tok_s, tok_bits, tok_hex, tok_man, tok_pwm]
  rw [scan_percent_miss _ _ _ ms, scan_percent_miss _ _ _ b1, scan_percent_miss _ _ _ c2,
    scan_percent_miss _ _ _ d3, scan_percent_miss _ _ _ e4]

theorem substitute_scan_skip (subs : List (List Char × List Char)) :
    ∀ (l : List Char) (k : Nat),
      substitute_scan subs k l = substitute_scan subs 0 (l.drop k) := by
  intro l
  induction l with
  | nil => intro k; cases k <;> simp [substitute_scan]
  | cons c rest ih =>
    intro k
    cases k with
    | zero => rfl
    | succ k => simp [substitute_scan, ih k]

theorem substitute_cons_ne (x1 x2 x3 x4 x5 Y : List Char) (c : Char) (hc : c ≠ '%') :
    substitute_all (five_tokens x1 x2 x3 x4 x5) (c :: Y)
      = c :: substitute_all (five_tokens x1 x2 x3 x4 x5) Y := by
  have : ('%' == c) = false := by simpa using fun e => hc e.symm
  simp [substitute_all, substitute_scan, five_tokens, List.find?, List.isPrefixOf, this]

theorem substitute_percent (x1 x2 x3 x4 x5 Y : List Char)
    (ms : "s".toList.isPrefixOf Y = false) (mb : "[bits]".toList.isPrefixOf Y = false)
    (mh : "[hex]".toList.isPrefixOf Y = false) (mm : "[man-bits]".toList.isPrefixOf Y = false)
    (mp : "[pwm-bits]".toList.isPrefixOf Y = false) :
    substitute_all (five_tokens x1 x2 x3 x4 x5) ('%' :: Y)
      = '%' :: substitute_all (five_tokens x1 x2 x3 x4 x5) Y := by
  have hs : "%s".toList.isPrefixOf ('%' :: Y) = false := by
    rw [tok_s]; simpa [List.isPrefixOf] using ms
  have hb : "%[bits]".toList.isPrefixOf ('%' :: Y) = false := by
    rw [tok_bits]; simpa [List.isPrefixOf] using mb
  have hh : "%[hex]".toList.isPrefixOf ('%' :: Y) = false := by
    rw [tok_hex]; simpa [List.isPrefixOf] using mh
  have hm : "%[man-bits]".toList.isPrefixOf ('%' :: Y) = false := by
    rw [tok_man]; simpa [List.isPrefixOf] using mm
  have hp : "%[pwm-bits]".toList.isPrefixOf ('%' :: Y) = false := by
    rw [tok_pwm]; simpa [List.isPrefixOf] using mp
  simp only [substitute_all, substitute_scan, five_tokens, List.find?, hs, hb, hh, hm, hp]

theorem substitute_s (x1 x2 x3 x4 x5 Y : List Char) :
    substitute_all (five_tokens x1 x2 x3 x4 x5) ("%s".toList ++ Y)
      = x1 ++ substitute_all (five_tokens x1 x2 x3 x4 x5) Y := by
  simp [substitute_all, substitute_scan, five_tokens, List.find?, List.isPrefixOf]

theorem substitute_bits (x1 x2 x3 x4 x5 Y : List Char) :
    substitute_all (five_tokens x1 x2 x3 x4 x5) ("%[bits]".toList ++ Y)
      = x2 ++ substitute_all (five_tokens x1 x2 x3 x4 x5) Y := by
  simp [substitute_all, substitute_scan, five_tokens, List.find?, List.isPrefixOf]

theorem substitute_hex (x1 x2 x3 x4 x5 Y : List Char) :
    substitute_all (five_tokens x1 x2 x3 x4 x5) ("%[hex]".toList ++ Y)
      = x3 ++ substitute_all (five_tokens x1 x2 x3 x4 x5) Y := by
  simp [substitute_all, substitute_scan, five_tokens, List.find?, List.isPrefixOf]

theorem substitute_man (x1 x2 x3 x4 x5 Y : List Char) :
    substitute_all (five_tokens x1 x2 x3 x4 x5) ("%[man-bits]".toList ++ Y)
      = x4 ++ substitute_all (five_tokens x1 x2 x3 x4 x5) Y := by
  simp [substitute_all, substitute_scan, five_tokens, List.find?, List.isPrefixOf]

theorem substitute_pwm (x1 x2 x3 x4 x5 Y : List Char) :
    substitute_all (five_tokens x1 x2 x3 x4 x5) ("%[pwm-bits]".toList ++ Y)
      = x5 ++ substitute_all (five_tokens x1 x2 x3 x4 x5) Y := by
  simp [substitute_all, substitute_scan, five_tokens, List.find?, List.isPrefixOf]

theorem isPrefixOf_split (t Y : List Char) (h : t.isPrefixOf Y = true) :
    ∃ Z, Y = t ++ Z ∧ Z.length + t.length = Y.length := by
  obtain ⟨Z, hZ⟩ := List.isPrefixOf_iff_prefix.mp h
  refine ⟨Z, hZ.symm, ?_⟩
  rw [← hZ, List.length_append]
  omega

theorem five_passes_eq_substitute (a1 a2 a3 a4 : Char) (l1 l2 l3 l4 x5 : List Char)
    (h1 : a1 ∉ token_chars) (h2 : a2 ∉ token_chars) (h3 : a3 ∉ token_chars)
    (h4 : a4 ∉ "[pwm-bits]".toList)
    (f1 : '%' ∉ a1 :: l1) (f2 : '%' ∉ a2 :: l2) (f3 : '%' ∉ a3 :: l3) (f4 : '%' ∉ a4 :: l4) :
    ∀ (n : Nat) (fmt : List Char), fmt.length ≤ n →
      five_passes (a1 :: l1) (a2 :: l2) (a3 :: l3) (a4 :: l4) x5 fmt
        = substitute_all (five_tokens (a1 :: l1) (a2 :: l2) (a3 :: l3) (a4 :: l4) x5) fmt := by
  intro n
  induction n with
  | zero =>
    intro fmt hlen
    have : fmt = [] := List.length_eq_zero.mp (by omega)
    subst this
    rw [five_passes_nil]
    rfl
  | succ n ih =>
    intro fmt hlen
    cases fmt with
    | nil => rw [five_passes_nil]; rfl
    | cons c Y =>
      simp only [List.length_cons] at hlen
      by_cases hc : c = '%'
      · subst hc
        by_cases ms : "s".toList.isPrefixOf Y = true
        · obtain ⟨Z, rfl, hZ⟩ := isPrefixOf_split _ _ ms
          have e : '%' :: ("s".toList ++ Z) = "%s".toList ++ Z := rfl
          rw [e, five_passes_s _ _ _ _ _ _ f1, substitute_s, ih Z (by omega)]
        by_cases mb : "[bits]".toList.isPrefixOf Y = true
        · obtain ⟨Z, rfl, hZ⟩ := isPrefixOf_split _ _ mb
          have e : '%' :: ("[bits]".toList ++ Z) = "%[bits]".toList ++ Z := rfl
          rw [e, five_passes_bits _ _ _ _ _ _ f2, substitute_bits, ih Z (by omega)]
        by_cases mh : "[hex]".toList.isPrefixOf Y = true
        · obtain ⟨Z, rfl, hZ⟩ := isPrefixOf_split _ _ mh
          have e : '%' :: ("[hex]".toList ++ Z) = "%[hex]".toList ++ Z := rfl
          rw [e, five_passes_hex _ _ _ _ _ _ f3, substitute_hex, ih Z (by omega)]
        by_cases mm : "[man-bits]".toList.isPrefixOf Y = true
        · obtain ⟨Z, rfl, hZ⟩ := isPrefixOf_split _ _ mm
          have e : '%' :: ("[man-bits]".toList ++ Z) = "%[man-bits]".toList ++ Z := rfl
          rw [e, five_passes_man _ _ _ _ _ _ f4, substitute_man, ih Z (by omega)]
        by_cases mp : "[pwm-bits]".toList.isPrefixOf Y = true
        · obtain ⟨Z, rfl, hZ⟩ := isPrefixOf_split _ _ mp
          have e : '%' :: ("[pwm-bits]".toList ++ Z) = "%[pwm-bits]".toList ++ Z := rfl
          rw [e, five_passes_pwm, substitute_pwm, ih Z (by omega)]
        simp only [Bool.not_eq_true] at ms mb mh mm mp
        rw [five_passes_percent a1 a2 a3 a4 l1 l2 l3 l4 x5 Y h1 h2 h3 h4 ms mb mh mm mp,
          substitute_percent _ _ _ _ _ Y ms mb mh mm mp, ih Y (by omega)]
      · rw [five_passes_cons_ne _ _ _ _ _ _ c hc, substitute_cons_ne _ _ _ _ _ _ c hc,
          ih Y (by omega)]

theorem replace_all_eq_scan (input search fmt : List Char) (hs : search ≠ []) :
    replace_all input search fmt = replace_all_scan search fmt 0 input := by
  unfold replace_all
  rw [if_neg hs]

theorem token_chars_plain :
    ∀ c ∈ token_chars, c.isDigit = false ∧ c ≠ '.' ∧ c ≠ '0' ∧ c ≠ '1'
      ∧ c ∉ "0123456789ABCDEF".toList := by
  decide

theorem hex_of_groups_ne_nil (s : List Char) (hs : s ≠ []) : hex_of_groups s ≠ [] := by
  unfold hex_of_groups
  rw [groups_cons 8 (by decide) s hs, List.flatMap_cons]
  simp [two_hex_digits]

theorem hex_of_groups_chars (b : List Bool) :
    ∀ c ∈ hex_of_groups (get_output_bit_string b), c ∈ "0123456789ABCDEF".toList := by
  intro c hc
  unfold hex_of_groups at hc
  rw [List.mem_flatMap] at hc
  obtain ⟨g, hg, hcg⟩ := hc
  have hl := mem_groups_length 8 (by decide) _ g hg
  have hv : binary_value g < 256 := by
    have h1 := binary_value_lt g
    have h2 : 2 ^ g.length ≤ 2 ^ 8 := Nat.pow_le_pow_right (by decide) hl.2
    omega
  simp only [two_hex_digits, List.mem_cons, List.mem_singleton, List.not_mem_nil,
    or_false] at hcg
  rcases hcg with h | h
  · rw [h]; exact hex_digit_mem _ (by omega)
  · rw [h]; exact hex_digit_mem _ (by omega)

theorem man_symbol_cases (g : List Char) :
    man_symbol g = '0' ∨ man_symbol g = '1' ∨ man_symbol g = 'x' := by
  unfold man_symbol
  split_ifs <;> simp

/-- C16: in relative-time mode, for a payload register of at least one bit and
an elapsed-seconds text that is a non-empty string of digits and `.` (what
`std::to_string` gives), the five sequential passes of `format_output` return
what a single left-to-right substitution of the five tokens over the template
returns. The template `%[he%[man-bits]]` on payload `00` gives the literal
`%[hex]`. With an empty time text the two would differ on `%[bi%sts]`. -/
theorem format_output_simultaneous (fmt : List Char) (d_output : List Bool) (clk : Clock)
    (hd : 1 ≤ d_output.length) (ht : clk.rel_time ≠ [])
    (hdig : ∀ c ∈ clk.rel_time, c.isDigit = true ∨ c = '.') :
    (∃ hex man pwm,
      get_output_hex_string d_output = some hex
      ∧ get_output_man_string d_output = some man
      ∧ get_output_pwm_string d_output = some pwm
      ∧ format_output fmt true d_output clk
          = some (substitute_all
              (five_tokens clk.rel_time (get_output_bit_string d_output) hex man pwm) fmt))
    ∧ format_output "%[he%[man-bits]]".toList true (payload_of "00") ⟨"1.5".toList, id⟩
        = some "%[hex]".toList
    ∧ substitute_all (five_tokens "1.5".toList "00".toList "00".toList "x".toList "x".toList)
        "%[he%[man-bits]]".toList = "%[hex]".toList
    ∧ format_output "%[bi%sts]".toList true (payload_of "01") ⟨[], id⟩ = some "01".toList
    ∧ substitute_all (five_tokens [] "01".toList "01".toList "0".toList "x".toList)
        "%[bi%sts]".toList = "%[bits]".toList := by
  refine ⟨?_, by decide, by decide, by decide, by decide⟩
  refine ⟨_, _, _, get_output_hex_string_eq d_output, get_output_man_string_eq d_output,
    get_output_pwm_string_eq d_output, ?_⟩
  have hbits_len := get_output_bit_string_length d_output
  have hbits_ne : get_output_bit_string d_output ≠ [] := by
    intro e
    rw [e] at hbits_len
    simp at hbits_len
    omega
  obtain ⟨a1, l1, e1⟩ := List.exists_cons_of_ne_nil ht
  obtain ⟨a2, l2, e2⟩ := List.exists_cons_of_ne_nil hbits_ne
  obtain ⟨a3, l3, e3⟩ := List.exists_cons_of_ne_nil (hex_of_groups_ne_nil _ hbits_ne)
  have hman_ne : (groups 2 (get_output_bit_string d_output)).map man_symbol ≠ [] := by
    rw [groups_cons 2 (by decide) _ hbits_ne]
    simp
  obtain ⟨a4, l4, e4⟩ := List.exists_cons_of_ne_nil hman_ne
  have c1 : ∀ c ∈ a1 :: l1, c.isDigit = true ∨ c = '.' := by rw [← e1]; exact hdig
  have c2 : ∀ c ∈ a2 :: l2, c = '0' ∨ c = '1' := by
    rw [← e2]; exact bitset_to_string_chars d_output
  have c3 : ∀ c ∈ a3 :: l3, c ∈ "0123456789ABCDEF".toList := by
    rw [← e3]; exact hex_of_groups_chars d_output
  have c4 : ∀ c ∈ a4 :: l4, c = '0' ∨ c = '1' ∨ c = 'x' := by
    rw [← e4]
    intro c hc
    rw [List.mem_map] at hc
    obtain ⟨g, _, rfl⟩ := hc
    exact man_symbol_cases g
  have h1 : a1 ∉ token_chars := by
    intro hm
    obtain ⟨p1, p2, _, _, _⟩ := token_chars_plain a1 hm
    rcases c1 a1 (List.mem_cons_self _ _) with h | h
    · rw [p1] at h; exact absurd h (by decide)
    · exact p2 h
  have h2 : a2 ∉ token_chars := by
    intro hm
    obtain ⟨_, _, p3, p4, _⟩ := token_chars_plain a2 hm
    rcases c2 a2 (List.mem_cons_self _ _) with h | h
    · exact p3 h
    · exact p4 h
  have h3 : a3 ∉ token_chars := by
    intro hm
    obtain ⟨_, _, _, _, p5⟩ := token_chars_plain a3 hm
    exact p5 (c3 a3 (List.mem_cons_self _ _))
  have h4 : a4 ∉ "[pwm-bits]".toList := by
    intro hm
    rcases c4 a4 (List.mem_cons_self _ _) with h | h | h <;> rw [h] at hm <;>
      exact absurd hm (by decide)
  have f1 : '%' ∉ a1 :: l1 := by
    intro hm
    rcases c1 '%' hm with h | h
    · exact absurd h (by decide)
    · exact absurd h (by decide)
  have f2 : '%' ∉ a2 :: l2 := by
    intro hm
    rcases c2 '%' hm with h | h <;> exact absurd h (by decide)
  have f3 : '%' ∉ a3 :: l3 := by
    intro hm
    exact absurd (c3 '%' hm) (by decide)
  have f4 : '%' ∉ a4 :: l4 := by
    intro hm
    rcases c4 '%' hm with h | h | h <;> exact absurd h (by decide)
  have hmain := five_passes_eq_substitute a1 a2 a3 a4 l1 l2 l3 l4
    ((groups 3 (get_output_bit_string d_output)).map pwm_symbol) h1 h2 h3 h4 f1 f2 f3 f4
    fmt.length fmt (Nat.le_refl _)
  rw [format_output_eq]
  simp only [if_true]
  rw [replace_all_eq_scan _ "%s".toList _ (by decide),
    replace_all_eq_scan _ "%[bits]".toList _ (by decide),
    replace_all_eq_scan _ "%[hex]".toList _ (by decide),
    replace_all_eq_scan _ "%[man-bits]".toList _ (by decide),
    replace_all_eq_scan _ "%[pwm-bits]".toList _ (by decide)]
  rw [← e1, ← e2, ← e3, ← e4] at hmain
  exact congrArg some hmain

/-- Witness of `format_output_simultaneous`: template `%s:%[bits]/%[hex]`,
payload `0110`, elapsed text `2.5`. -/
theorem format_output_simultaneous_witness :
    (1 ≤ (payload_of "0110").length ∧ (⟨"2.5".toList, id⟩ : Clock).rel_time ≠ []
      ∧ ∀ c ∈ (⟨"2.5".toList, id⟩ : Clock).rel_time, c.isDigit = true ∨ c = '.')
    ∧ format_output "%s:%[bits]/%[hex]".toList true (payload_of "0110") ⟨"2.5".toList, id⟩
        = some "2.5:0110/06".toList
    ∧ ∃ hex man pwm,
        get_output_hex_string (payload_of "0110") = some hex
        ∧ get_output_man_string (payload_of "0110") = some man
        ∧ get_output_pwm_string (payload_of "0110") = some pwm
        ∧ format_output "%s:%[bits]/%[hex]".toList true (payload_of "0110") ⟨"2.5".toList, id⟩
            = some (substitute_all
                (five_tokens (⟨"2.5".toList, id⟩ : Clock).rel_time
                  (get_output_bit_string (payload_of "0110")) hex man pwm)
                "%s:%[bits]/%[hex]".toList) :=
  ⟨⟨by decide, by decide, by decide⟩, by decide,
    (format_output_simultaneous "%s:%[bits]/%[hex]".toList (payload_of "0110")
      ⟨"2.5".toList, id⟩ (by decide) (by decide) (by decide)).1⟩

/-! ### The unchecked timestamp buffer (C12) -/

theorem format_output_buf_rel (fmt : List Char) (reg : List Bool) (c : Clock) :
    format_output_buf fmt true reg c = format_output fmt true reg c := by
  simp [format_output_buf, format_output]

theorem format_output_buf_fits (fmt : List Char) (reg : List Bool) (c : Clock)
    (h : (c.strftime fmt).length + 1 ≤ 512) :
    format_output_buf fmt false reg c = format_output fmt false reg c := by
  simp [format_output_buf, format_output, strftime_buf, h]

theorem format_output_buf_overflow (fmt : List Char) (reg : List Bool) (c : Clock)
    (h : ¬ (c.strftime fmt).length + 1 ≤ 512) :
    format_output_buf fmt false reg c = none := by
  simp [format_output_buf, strftime_buf, h]

theorem format_output_buf_eq (fmt : List Char) (rel : Bool) (reg : List Bool) (c : Clock)
    (h : rel = true ∨ (c.strftime fmt).length + 1 ≤ 512) :
    format_output_buf fmt rel reg c = format_output fmt rel reg c := by
  cases rel with
  | true => exact format_output_buf_rel fmt reg c
  | false =>
    rcases h with h | h
    · exact absurd h (by decide)
    · exact format_output_buf_fits fmt reg c h

theorem work_item_buf_eq (st : pattern_dump_impl) (c : Clock) (x : Fin 256)
    (h : st.d_rel_time = true ∨ (c.strftime st.d_output_fmt).length + 1 ≤ 512) :
    work_item_buf st c x = work_item st c x := by
  unfold work_item_buf work_item capture_bit_buf capture_bit
  simp only [format_output_buf_eq _ _ _ _ h]

theorem work_loop_buf_eq (clk : Nat → Clock) :
    ∀ (s : List (Fin 256)) (i : Nat) (st : pattern_dump_impl),
      (st.d_rel_time = true ∨ ∀ j, ((clk j).strftime st.d_output_fmt).length + 1 ≤ 512) →
      work_loop_buf clk i s st = work_loop clk i s st := by
  intro s
  induction s with
  | nil => intro i st _; rfl
  | cons x rest ih =>
    intro i st h
    have hstep : work_item_buf st (clk i) x = work_item st (clk i) x :=
      work_item_buf_eq st (clk i) x (h.imp id (fun hj => hj i))
    cases hw : work_item st (clk i) x with
    | none => simp [work_loop_buf, work_loop, hstep, hw]
    | some r =>
      obtain ⟨st1, fo⟩ := r
      obtain ⟨_, _, _, a4, a5⟩ := work_item_inv st st1 (clk i) x fo hw
      have hrest := ih (i + 1) st1 (by rw [a4, a5]; exact h)
      simp [work_loop_buf, work_loop, hstep, hw, hrest]

theorem format_output_buf_some (fmt : List Char) (rel : Bool) (reg : List Bool) (c : Clock)
    (out : List Char) (h : format_output_buf fmt rel reg c = some out) :
    format_output fmt rel reg c = some out := by
  by_cases hf : rel = true ∨ (c.strftime fmt).length + 1 ≤ 512
  · rw [← format_output_buf_eq fmt rel reg c hf]; exact h
  · have hrel : rel = false := by
      cases rel with
      | true => exact absurd (Or.inl rfl) hf
      | false => rfl
    subst hrel
    rw [format_output_buf_overflow fmt reg c (fun hh => hf (Or.inr hh))] at h
    cases h

theorem work_item_buf_some (st : pattern_dump_impl) (c : Clock) (x : Fin 256)
    (r : pattern_dump_impl × Option Frame) (h : work_item_buf st c x = some r) :
    work_item st c x = some r := by
  unfold work_item_buf at h
  unfold work_item
  by_cases hl : locked st
  · rw [if_pos hl] at h ⊢
    unfold capture_bit_buf at h
    unfold capture_bit
    cases hs : shift_bit st.d_output (to_bool x) with
    | none => simp [hs] at h
    | some r1 =>
      simp only [hs, Option.bind_eq_bind, Option.some_bind] at h ⊢
      split at h
      · rename_i hfull
        rw [if_pos hfull]
        cases hfo : format_output_buf st.d_output_fmt st.d_rel_time r1 c with
        | none => simp [hfo] at h
        | some out =>
          rw [format_output_buf_some _ _ _ _ _ hfo]
          simpa [hfo] using h
      · rename_i hnot
        rw [if_neg hnot]
        exact h
  · rw [if_neg hl] at h ⊢
    exact h

theorem work_loop_buf_some (clk : Nat → Clock) :
    ∀ (s : List (Fin 256)) (i : Nat) (st : pattern_dump_impl)
      (r : pattern_dump_impl × List Frame),
      work_loop_buf clk i s st = some r → work_loop clk i s st = some r := by
  intro s
  induction s with
  | nil => intro i st r h; exact h
  | cons x rest ih =>
    intro i st r h
    cases hw : work_item_buf st (clk i) x with
    | none => simp [work_loop_buf, hw] at h
    | some r1 =>
      obtain ⟨st1, fo⟩ := r1
      cases hr : work_loop_buf clk (i + 1) rest st1 with
      | none => simp [work_loop_buf, hw, hr] at h
      | some r2 =>
        obtain ⟨st2, fs⟩ := r2
        simp only [work_loop_buf, hw, hr, Option.bind_eq_bind, Option.some_bind] at h
        simp only [work_loop, work_item_buf_some st (clk i) x _ hw, ih (i + 1) st1 _ hr,
          Option.bind_eq_bind, Option.some_bind]
        exact h

theorem work_buf_total (pattern : List (Fin 256)) (dump_len : Nat) (fmt : List Char)
    (rel : Bool) (clk : Nat → Clock) (input_items : List (Fin 256))
    (hn : 1 ≤ pattern.length) (hd : 1 ≤ dump_len)
    (h : rel = true ∨ ∀ j, ((clk j).strftime fmt).length + 1 ≤ 512) :
    ∃ st frames, work_buf (make pattern dump_len fmt rel) clk input_items = some (st, frames)
      ∧ work (make pattern dump_len fmt rel) clk input_items = some (st, frames)
      ∧ 1 ≤ st.d_pattern_check.length ∧ 1 ≤ st.d_output.length := by
  have hm1 : 1 ≤ (make pattern dump_len fmt rel).d_pattern_check.length := by
    simp [make, bitset_new]; omega
  have hm2 : 1 ≤ (make pattern dump_len fmt rel).d_output.length := by
    simp [make, bitset_new]; omega
  obtain ⟨st, frames, hrun⟩ := work_loop_total clk input_items 0 _ hm1 hm2
  obtain ⟨a1, a2, _, _, _⟩ := work_loop_inv clk input_items 0 _ st frames hrun
  refine ⟨st, frames, ?_, hrun, by omega, by omega⟩
  unfold work_buf
  rw [work_loop_buf_eq clk input_items 0 (make pattern dump_len fmt rel) h]
  exact hrun

set_option maxRecDepth 8000 in
/-- C12: the totality the claim states fails at one step of `work`. In
wall-clock mode with a template of 512 letters `a`, pattern `1` and dump length
1, the item that completes the first frame makes `format_output` call
`std::strftime` on a rendering that needs 513 bytes: the call fails, its
result is not tested and the indeterminate buffer is read. The item before
it, the same run with 511 letters, and the same run in relative mode all
return. Everything else the claim lists holds: whenever the mode is relative or
every rendering fits the buffer, `work` returns on every input for `n ≥ 1` and
`d ≥ 1` and leaves both registers non-empty, so that each `shift_bit` writes
position 0 within bounds; the four encoders return on every register; and each
group the hex loop hands to the parser has 1 to 8 characters, all `0` or `1`. -/
theorem strftime_overflow_unchecked :
    strftime_buf ⟨[], id⟩ (List.replicate 512 'a') = none
    ∧ format_output_buf (List.replicate 512 'a') false [false] ⟨[], id⟩ = none
    ∧ work_buf (make [1] 1 (List.replicate 512 'a') false) (fun _ => ⟨[], id⟩) [1, 0] = none
    ∧ (work_buf (make [1] 1 (List.replicate 512 'a') false) (fun _ => ⟨[], id⟩) [1]).isSome
        = true
    ∧ (work_buf (make [1] 1 (List.replicate 511 'a') false) (fun _ => ⟨[], id⟩) [1, 0]).isSome
        = true
    ∧ (work_buf (make [1] 1 (List.replicate 512 'a') true) (fun _ => ⟨[], id⟩) [1, 0]).isSome
        = true
    ∧ (∀ (fmt : List Char) (reg : List Bool) (c : Clock),
        ¬ (c.strftime fmt).length + 1 ≤ 512 → format_output_buf fmt false reg c = none)
    ∧ (∀ (pattern : List (Fin 256)) (dump_len : Nat) (fmt : List Char) (rel : Bool)
        (clk : Nat → Clock) (input_items : List (Fin 256)),
        1 ≤ pattern.length → 1 ≤ dump_len →
        (rel = true ∨ ∀ j, ((clk j).strftime fmt).length + 1 ≤ 512) →
        ∃ st frames,
          work_buf (make pattern dump_len fmt rel) clk input_items = some (st, frames)
          ∧ 0 < (bitset_shl1 st.d_pattern_check).length
          ∧ 0 < (bitset_shl1 st.d_output).length
          ∧ (∀ bit, ∃ r, shift_bit st.d_pattern_check bit = some r)
          ∧ (∀ bit, ∃ r, shift_bit st.d_output bit = some r))
    ∧ (∀ reg : List Bool,
        (∃ hex, get_output_hex_string reg = some hex)
        ∧ (∃ man, get_output_man_string reg = some man)
        ∧ (∃ pwm, get_output_pwm_string reg = some pwm))
    ∧ (∀ (reg : List Bool) (i : Nat), i < (get_output_bit_string reg).length →
        ∃ g v, substr (get_output_bit_string reg) i 8 = some g
          ∧ 1 ≤ g.length ∧ g.length ≤ 8 ∧ (∀ c ∈ g, c = '0' ∨ c = '1')
          ∧ bitset8_to_ulong g = some v ∧ v < 256) := by
  refine ⟨by decide, by decide, by decide, by decide, by decide, by decide,
    format_output_buf_overflow, ?_, ?_, hex_group_ok⟩
  · intro pattern dump_len fmt rel clk input_items hn hd h
    obtain ⟨st, frames, hrun, _, h1, h2⟩ :=
      work_buf_total pattern dump_len fmt rel clk input_items hn hd h
    refine ⟨st, frames, hrun, ?_, ?_, fun bit => ⟨_, shift_bit_eq _ bit h1⟩,
      fun bit => ⟨_, shift_bit_eq _ bit h2⟩⟩
    · simp [bitset_shl1]; omega
    · simp [bitset_shl1]; omega
  · intro reg
    exact ⟨⟨_, get_output_hex_string_eq reg⟩, ⟨_, get_output_man_string_eq reg⟩,
      ⟨_, get_output_pwm_string_eq reg⟩⟩

end gr.reveng
